import Mathlib

/-!
Verification of the offline container-application update core
(`src/docker/docker.cc` and `src/offline/client.cc`).

Strings of the C++ code (`std::string`) are modelled as `List Char`; byte
buffers as `List Nat`.  External collaborators (the SHA-256 routine, the
HTTP transport, the JSON parser of jsoncpp, glibc's `strverscmp`) are
modelled as explicit parameters of the embedded functions, with their
documented contracts stated as hypotheses where a theorem needs them.
-/

namespace Aklite

abbrev Str := List Char

/-- `std::string::find(c)`: index of the first occurrence of `c`, if any. -/
def findChar : Str → Char → Option Nat
  | [], _ => none
  | a :: as, c => if a = c then some 0 else (findChar as c).map (· + 1)

/-- `std::string::find(c, pos)`: first occurrence of `c` at index `pos` or later. -/
def findCharFrom (s : Str) (c : Char) (pos : Nat) : Option Nat :=
  (findChar (s.drop pos) c).map (· + pos)

/-- `std::string::rfind(c)`: index of the last occurrence of `c`, if any. -/
def rfindChar : Str → Char → Option Nat
  | [], _ => none
  | a :: as, c =>
    match rfindChar as c with
    | some i => some (i + 1)
    | none => if a = c then some 0 else none

/-- `std::string::substr(pos, len)` (for in-range `pos`). -/
def substr (s : Str) (pos len : Nat) : Str := (s.drop pos).take len

/-- ASCII lower-casing of one character (what `boost::algorithm::to_lower_copy`
does on the ASCII range used by digests and auth headers). -/
def lowerChar (c : Char) : Char :=
  if 'A' ≤ c ∧ c ≤ 'Z' then Char.ofNat (c.toNat + 32) else c

/-- `boost::algorithm::to_lower_copy`. -/
def lowerStr (s : Str) : Str := s.map lowerChar

/-- The whitespace set of `std::isspace` in the default locale, as used by
`boost::trim`. -/
def isSpaceChar (c : Char) : Bool :=
  c = ' ' ∨ c = '\t' ∨ c = '\n' ∨ c = '\r' ∨ c = '\x0b' ∨ c = '\x0c'

/-- `boost::trim`: strip whitespace from both ends. -/
def trimStr (s : Str) : Str :=
  ((s.dropWhile isSpaceChar).reverse.dropWhile isSpaceChar).reverse

/-- `boost::starts_with` (case-sensitive). -/
def startsWith (s pre : Str) : Bool := s.take pre.length = pre

/-! ## HashedDigest (`docker.cc` lines 59-72) -/

/-- `HashedDigest::Type`. -/
def digestType : Str := "sha256:".toList

/-- The `HashedDigest` value: `digest_` (full lower-cased string), `hash_`
(the hex part) and `short_hash_` (its first 7 characters). -/
structure HashedDigest where
  digest : Str
  hash : Str
  shortHash : Str
  deriving Repr, DecidableEq

/-- `HashedDigest::HashedDigest(const std::string&)`: lower-case the input,
require the `sha256:` prefix and a 64-character remainder.  A thrown
`std::invalid_argument` is modelled as `Except.error`. -/
def hashedDigest (hash_digest : Str) : Except String HashedDigest :=
  let d := lowerStr hash_digest
  if digestType ≠ substr d 0 digestType.length then
    .error "Unsupported hash type"
  else
    let h := d.drop digestType.length
    if h.length ≠ 64 then
      .error "Invalid hash size"
    else
      .ok ⟨d, h, substr h 0 7⟩

/-! ## Uri (`docker.cc` lines 16-57) -/

/-- The parsed pinned OCI reference. -/
structure Uri where
  digest : HashedDigest
  app : Str
  factory : Str
  repo : Str
  registryHostname : Str
  deriving Repr, DecidableEq

/-- `Uri::parseUri(uri, factory_app)`.  `std::invalid_argument` is modelled
as `Except.error`. -/
def parseUri (uri : Str) (factory_app : Bool) : Except String Uri :=
  match findChar uri '@' with
  | none => .error "Invalid URI: digest not found"
  | some split_pos =>
    let digest := uri.drop (split_pos + 1)
    match findChar uri '/' with
    | none => .error "Invalid URI: image name is not found"
    | some name_pos_start =>
      if split_pos ≤ name_pos_start + 1 then
        .error "Invalid URI: image name is not present before digest"
      else
        let registry_hostname := substr uri 0 name_pos_start
        let name := substr uri (name_pos_start + 1) (split_pos - name_pos_start - 1)
        let fa : Str × Str :=
          match rfindChar name '/' with
          | some app_pos_start => (substr name 0 app_pos_start, name.drop (app_pos_start + 1))
          | none => ([], name)
        if factory_app ∧ (fa.1 = [] ∨ (findChar fa.1 '/').isSome) then
          .error "Invalid URI: invalid name format of a factory image"
        else
          (hashedDigest digest).map fun hd =>
            ⟨hd, fa.2, fa.1, name, registry_hostname⟩

/-! ## Streaming download context (`docker.cc` lines 214-260) -/

abbrev Bytes := List Nat

/-- The output file stream (`std::ofstream`).  `content` are the file's
bytes, `pos` the put position (`tellp`), `good` the stream state.  `limit`
models the device capacity: a write beyond it is short and puts the stream
in a fail state, so that partial writes (`end_pos - start_pos < size`) are
representable. -/
structure OStream where
  content : Bytes
  pos : Nat
  limit : Nat
  good : Bool
  deriving Repr, DecidableEq

/-- `ostream::write(data, size)` at the current put position, followed by
reading `tellp`.  Writing on a failed stream does nothing. -/
def osWrite (s : OStream) (data : Bytes) : OStream :=
  if s.good then
    let w := min data.length (s.limit - s.pos)
    { content := s.content.take s.pos ++ data.take w ++ s.content.drop (s.pos + w),
      pos := s.pos + w, limit := s.limit, good := decide (w = data.length) }
  else s

/-- `DownloadCtx`: the sink, the rolling hasher (modelled by the list of
bytes fed to it), `expected_size`, `written_size`, `received_size`. -/
structure DownloadCtx where
  out : OStream
  hashed : Bytes
  expected : Nat
  written : Nat
  received : Nat
  deriving Repr, DecidableEq

/-- `DownloadCtx::write(data, size)`: returns the updated context and the
value handed back to the transport. -/
def ctxWrite (ctx : DownloadCtx) (data : Bytes) : DownloadCtx × Nat :=
  let size := data.length
  let received_size := ctx.written + size
  if ctx.expected < received_size then
    ({ ctx with received := received_size }, size + 1)
  else if ¬ ctx.out.good then
    ({ ctx with received := received_size }, size + 1)
  else
    let start_pos := ctx.out.pos
    let out := osWrite ctx.out data
    let d := out.pos - start_pos
    ({ out := out, hashed := ctx.hashed ++ data, expected := ctx.expected,
       written := ctx.written + d, received := received_size }, d)

/-- `DownloadCtx::reset()`: seek the sink to the beginning, reset the
hasher, zero the counters. -/
def ctxReset (ctx : DownloadCtx) : DownloadCtx :=
  { ctx with out := { ctx.out with pos := 0 }, hashed := [], written := 0, received := 0 }

/-- The transport feeding its received chunks through `DownloadHandler`
(`docker.cc` lines 255-260): a callback return value different from the
chunk size aborts the transfer (curl's contract). -/
def runChunks : DownloadCtx → List Bytes → DownloadCtx × Bool
  | ctx, [] => (ctx, true)
  | ctx, c :: rest =>
    let r := ctxWrite ctx c
    if r.2 = c.length then runChunks r.1 rest else (r.1, false)

/-! ## JSON values (the jsoncpp collaborator) -/

/-- JSON values as produced and consumed through jsoncpp.  Object members
are an association list; all objects built by this development keep their
keys strictly sorted, mirroring jsoncpp's `std::map` storage. -/
inductive Jsn where
  | null : Jsn
  | str : Str → Jsn
  | obj : List (Str × Jsn) → Jsn
  | arr : List Jsn → Jsn
  deriving Repr

/-- `Json::Value::operator[](key)` for reading: the member, or null. -/
def Jsn.get (j : Jsn) (k : Str) : Jsn :=
  match j with
  | .obj kvs => (((kvs.find? (fun p => p.1 = k)).map (fun p => p.2)).getD .null)
  | _ => .null

/-- `Json::Value::operator[](index)` for reading: the element, or null. -/
def Jsn.idx (j : Jsn) (i : Nat) : Jsn :=
  match j with
  | .arr xs => xs.getD i .null
  | _ => .null

/-- `Json::Value::asString()` on the values this code reads (strings and
null). -/
def Jsn.asString : Jsn → Str
  | .str s => s
  | _ => []

/-! ## HTTP responses and the registry client (`docker.cc` lines 74-366) -/

/-- An `HttpResponse` as observed by the registry client: the body, the
HTTP status code, the observed response headers, and the jsoncpp parse of
the body (`getJson`), which the transport model supplies alongside the
body. -/
structure HttpResponse where
  body : Str
  status : Nat
  headers : List (Str × Str)
  json : Jsn

/-- Modelled from the spec: `HttpResponse::isOk` (declared in the aktualizr
http interface, outside these sources) — a 2xx status is success, anything
else fails. -/
def isOk (r : HttpResponse) : Bool := 200 ≤ r.status ∧ r.status < 300

/-- Look up an observed response header. -/
def getHeader (r : HttpResponse) (name : Str) : Option Str :=
  (r.headers.find? (fun p => p.1 = name)).map (fun p => p.2)

/-- `RegistryClient::BearerAuth::Header`. -/
def wwwAuthenticate : Str := "www-authenticate".toList

/-- `RegistryClient::BearerAuth::AuthType`. -/
def authType : Str := "bearer".toList

/-- `std::string::rfind(pat)`: start index of the last occurrence. -/
def rfindSub (s pat : Str) : Option Nat :=
  ((List.range (s.length + 1)).filter (fun i => substr s i pat.length = pat)).getLast?

/-- `std::unordered_map::operator[] =`: overwrite-or-insert a parameter. -/
def setParam (ps : List (Str × Str)) (k v : Str) : List (Str × Str) :=
  ps.filter (fun p => p.1 ≠ k) ++ [(k, v)]

/-- Parameter lookup in the collected bearer parameters. -/
def getParam (ps : List (Str × Str)) (k : Str) : Option Str :=
  (ps.find? (fun p => p.1 = k)).map (fun p => p.2)

lemma findChar_lt_length {s : Str} {c : Char} {i : Nat} (h : findChar s c = some i) :
    i < s.length := by
  induction s generalizing i with
  | nil => simp [findChar] at h
  | cons a as ih =>
    by_cases ha : a = c
    · simp [findChar, ha] at h
      simp only [List.length_cons]
      omega
    · simp [findChar, ha, Option.map_eq_some'] at h
      obtain ⟨j, hj, rfl⟩ := h
      have := ih hj
      simp only [List.length_cons]
      omega

lemma findCharFrom_bounds {s : Str} {c : Char} {pos i : Nat}
    (h : findCharFrom s c pos = some i) : pos ≤ i ∧ i < s.length := by
  simp only [findCharFrom, Option.map_eq_some'] at h
  obtain ⟨j, hj, rfl⟩ := h
  have := findChar_lt_length hj
  simp at this
  omega

/-- The parameter-collection loop of `BearerAuth::BearerAuth` (`docker.cc`
lines 94-130), scanning `bearer_val` from `param_begin_pos`.  The first
(`fuel`) argument only makes the recursion structural, so that the
function evaluates by reduction: every iteration advances
`param_begin_pos` past a found closing quote, hence by at least two
(`findCharFrom_bounds`), so the initial fuel `bv.length + 1` used by
`bearerAuth` is never exhausted. -/
def bearerParamsGo (bv : Str) :
    Nat → Nat → List (Str × Str) → Except String (List (Str × Str))
  | 0, _, _ => .error "unreachable: fuel exhausted"
  | fuel + 1, param_begin_pos, ps =>
    match findCharFrom bv '=' param_begin_pos with
    | none => .ok ps
    | some param_eq_pos =>
      match findCharFrom bv '"' param_begin_pos with
      | none => .error "missing opening quote"
      | some param_value_beg_pos =>
        if param_value_beg_pos < param_eq_pos then .error "quote before eq"
        else
          let must_be_empty_or_space :=
            substr bv (param_eq_pos + 1) (param_value_beg_pos - param_eq_pos - 1)
          if ¬ must_be_empty_or_space.all (fun c => c = ' ') then
            .error "missing opening quote"
          else
            match findCharFrom bv '"' (param_value_beg_pos + 1) with
            | none => .error "missing closing quote"
            | some param_value_end_pos =>
              let param_name :=
                trimStr (substr bv param_begin_pos (param_eq_pos - param_begin_pos))
              let param_value :=
                trimStr (substr bv (param_value_beg_pos + 1)
                  (param_value_end_pos - param_value_beg_pos - 1))
              let ps1 := setParam ps param_name param_value
              match findCharFrom bv ',' param_value_end_pos with
              | none => .ok ps1
              | some comma => bearerParamsGo bv fuel (comma + 1) ps1

/-- The parsed `www-authenticate` challenge. -/
structure BearerAuth where
  Realm : Str
  Service : Str
  Scope : Str
  deriving Repr, DecidableEq

/-- `RegistryClient::BearerAuth::BearerAuth(auth_header_value)`
(`docker.cc` lines 86-149). -/
def bearerAuth (auth_header_value : Str) : Except String BearerAuth :=
  if ¬ startsWith auth_header_value authType then
    .error "Unsupported authentication type to access Registry"
  else
    let bearer_val :=
      trimStr (auth_header_value.drop
        ((rfindSub auth_header_value authType).getD 0 + authType.length))
    (bearerParamsGo bearer_val (bearer_val.length + 1) 0 []).bind fun ps =>
      match getParam ps "realm".toList, getParam ps "service".toList,
          getParam ps "scope".toList with
      | some r, some s, some sc => .ok ⟨r, s, sc⟩
      | _, _, _ => .error "Missing required auth param"

/-- Modelled from the spec (`BearerAuth::uri` lives in docker.h, outside
these sources): the token-endpoint URL `realm?service=…&scope=…`. -/
def bearerUri (b : BearerAuth) : Str :=
  b.Realm ++ "?service=".toList ++ b.Service ++ "&scope=".toList ++ b.Scope

/-- The base64 alphabet of `Utils::toBase64`. -/
def base64Chars : Str :=
  "ABCDEFGHIJKLMNOPQRSTUVWXYZabcdefghijklmnopqrstuvwxyz0123456789+/".toList

/-- One base64 digit. -/
def b64At (n : Nat) : Char := (base64Chars.drop n).headD 'A'

/-- `Utils::toBase64` (an aktualizr utility; standard RFC 4648 base64). -/
def toBase64 : Str → Str
  | [] => []
  | [a] =>
    let x := a.toNat
    [b64At (x / 4), b64At (x % 4 * 16), '=', '=']
  | [a, b] =>
    let x := a.toNat
    let y := b.toNat
    [b64At (x / 4), b64At (x % 4 * 16 + y / 16), b64At (y % 16 * 4), '=']
  | a :: b :: c :: rest =>
    let x := a.toNat
    let y := b.toNat
    let z := c.toNat
    b64At (x / 4) :: b64At (x % 4 * 16 + y / 16) :: b64At (y % 16 * 4 + z / 64) ::
      b64At (z % 64) :: toBase64 rest

/-- The transports reachable from one `RegistryClient`: the per-request
manifest/token factory products and the `ota_lite_client` credentials
endpoint.  Each function maps the request (URL where it varies, and the
extra request headers) to the transport's behaviour. -/
structure RegistryWorld where
  manifestResp : Str → List Str → HttpResponse
  credsResp : HttpResponse
  tokenResp : Str → List Str → HttpResponse
  blobDownload : List Str → List Bytes × HttpResponse

/-- `RegistryClient::getBasicAuthHeader` (`docker.cc` lines 317-345). -/
def getBasicAuthHeader (w : RegistryWorld) : Except String Str :=
  let creds_resp := w.credsResp
  if ¬ isOk creds_resp then .error "Failed to get Docker Registry credentials"
  else
    let username := (creds_resp.json.get "Username".toList).asString
    let secret := (creds_resp.json.get "Secret".toList).asString
    if username = [] ∨ secret = [] then .error "Got invalid Docker Registry credentials"
    else .ok ("authorization: basic ".toList ++ toBase64 (username ++ ':' :: secret))

/-- `RegistryClient::getBearerAuthHeader` (`docker.cc` lines 347-366). -/
def getBearerAuthHeader (w : RegistryWorld) (bearer : BearerAuth) : Except String Str :=
  (getBasicAuthHeader w).bind fun basic =>
    let token_resp := w.tokenResp (bearerUri bearer) [basic]
    if ¬ isOk token_resp then .error "Failed to get Auth Token at Docker Registry"
    else
      let token := (token_resp.json.get "token".toList).asString
      if token = [] then .error "Got invalid token from Docker Registry"
      else .ok ("authorization: bearer ".toList ++ token)

/-- Modelled from the spec (`composeManifestUrl` lives in docker.h):
`<base>/v2/<repo>/manifests/<digest>`. -/
def composeManifestUrl (uri : Uri) : Str :=
  "https://".toList ++ uri.registryHostname ++ "/v2/".toList ++ uri.repo ++
    "/manifests/".toList ++ uri.digest.digest

/-- Modelled from the spec (`composeBlobUrl` lives in docker.h):
`<base>/v2/<repo>/blobs/<digest>`. -/
def composeBlobUrl (uri : Uri) : Str :=
  "https://".toList ++ uri.registryHostname ++ "/v2/".toList ++ uri.repo ++
    "/blobs/".toList ++ uri.digest.digest

/-- `RegistryClient::DefManifestMaxSize` (value from the spec, docker.h is
outside these sources). -/
def defManifestMaxSize : Nat := 1024 * 1024

/-- The request/401-retry phase of `RegistryClient::getAppManifest`
(`docker.cc` lines 169-182): perform the manifest GET; on a 401, parse
the challenge, obtain a bearer token and repeat the GET once with the
`authorization` header appended.  Returns the final response together
with the header lists of the requests performed. -/
def manifestAuthStage (w : RegistryWorld) (uri : Uri) (format : Str) :
    Except String (HttpResponse × List (List Str)) :=
  let manifest_url := composeManifestUrl uri
  let headers1 := ["accept:".toList ++ format]
  let r1 := w.manifestResp manifest_url headers1
  if r1.status = 401 then
    match getHeader r1 wwwAuthenticate with
    | none => .error "No www-authenticate header found in the 401 response"
    | some hv =>
      (bearerAuth hv).bind fun ba =>
        (getBearerAuthHeader w ba).map fun auth_header =>
          let headers2 := headers1 ++ [auth_header]
          (w.manifestResp manifest_url headers2, [headers1, headers2])
  else .ok (r1, [headers1])

/-- `RegistryClient::getAppManifest` (`docker.cc` lines 157-212).  `Hs`
models the collaborator pipeline
`to_lower_copy(hex(Crypto::sha256digest(·)))`.  Besides the returned body,
the model also reports the header lists of the manifest requests actually
performed, so that theorems can speak about the retry. -/
def getAppManifest (Hs : Str → Str) (w : RegistryWorld) (uri : Uri) (format : Str)
    (manifest_size : Option Nat) : Except String (Str × List (List Str)) :=
  (manifestAuthStage w uri format).bind fun pr =>
    let resp := pr.1
    if ¬ isOk resp then .error "Failed to download App manifest"
    else
      let sizeBad : Bool :=
        match manifest_size with
        | some n => resp.body.length != n
        | none => decide (manifest_size.getD defManifestMaxSize < resp.body.length)
      if sizeBad then .error "App manifest size mismatch"
      else if Hs resp.body ≠ uri.digest.hash then .error "App manifest hash mismatch"
      else .ok (resp.body, pr.2)

/-- The 401-retry phase of `RegistryClient::downloadBlob` (`docker.cc`
lines 281-290): on a 401 first response, obtain the bearer header, reset
the download context and repeat the transfer; otherwise keep the first
attempt.  `ok1` is whether the first transfer succeeded (no callback
abort and a success status); the result pairs the final context with the
final transfer success. -/
def blobAuthStage (w : RegistryWorld) (ctx1 : DownloadCtx) (ok1 : Bool)
    (resp1 : HttpResponse) : Except String (DownloadCtx × Bool) :=
  if resp1.status = 401 then
    match getHeader resp1 wwwAuthenticate with
    | none => .error "No www-authenticate header found in the 401 response"
    | some hv =>
      (bearerAuth hv).bind fun ba =>
        (getBearerAuthHeader w ba).map fun auth_header =>
          let ctx := ctxReset ctx1
          let dl2 := w.blobDownload [auth_header]
          let run2 := runChunks ctx dl2.1
          (run2.1, run2.2 && isOk dl2.2)
  else .ok (ctx1, ok1)

/-- `RegistryClient::downloadBlob` (`docker.cc` lines 262-315).  `Hb`
models `to_lower_copy(hasher.getHexDigest())` on the bytes fed to the
hasher; `limit` is the sink device capacity.  The result is the pair
(file present at `filepath` and its bytes, error raised). -/
def downloadBlob (Hb : Bytes → Str) (w : RegistryWorld) (uri : Uri) (expected_size : Nat)
    (limit : Nat) : Option Bytes × Option String :=
  let ctx0 : DownloadCtx := ⟨⟨[], 0, limit, true⟩, [], expected_size, 0, 0⟩
  let dl1 := w.blobDownload []
  let run1 := runChunks ctx0 dl1.1
  let ctx1 := run1.1
  match blobAuthStage w ctx1 (run1.2 && isOk dl1.2) dl1.2 with
  | .error e => (some ctx1.out.content, some e)
  | .ok (ctx, respOk) =>
    if ¬ respOk then (some ctx.out.content, some "Failed to download App blob")
    else if ctx.written ≠ expected_size then (none, some "blob size mismatch")
    else if Hb ctx.hashed ≠ uri.digest.hash then (none, some "blob hash mismatch")
    else (some ctx.out.content, none)

/-! ## Targets and the offline target selector (`client.cc` lines 178-285) -/

/-- One entry of a target's `docker_compose_apps` map (`Target::Apps`):
the app name (the JSON key) and its pinned uri. -/
structure TargetApp where
  name : Str
  uri : Str
  deriving Repr, DecidableEq

/-- The read-only view of an `Uptane::Target` used by the offline client:
`filename()`, `sha256Hash()`, `hardwareIds()`, `custom_version()` and the
`docker_compose_apps` map. -/
structure Target where
  filename : Str
  sha256 : Str
  hardwareIds : List Str
  customVersion : Str
  apps : List TargetApp
  deriving Repr, DecidableEq

/-- The hardware-id filter of the candidate loop (`client.cc` lines
227-237): exactly one hardware id, equal to the device's. -/
def eligible (hw : Str) (t : Target) : Bool :=
  match t.hardwareIds with
  | [h] => h = hw
  | _ => false

/-- `std::set<Uptane::Target, target_sort>::insert` where `target_sort`
compares `custom_version()` with `strverscmp … > 0` (descending): walk the
sorted list; an equivalent element already present keeps the existing one.
`vc` models glibc `strverscmp`. -/
def insertT (vc : Str → Str → Int) (t : Target) : List Target → List Target
  | [] => [t]
  | h :: rest =>
    if 0 < vc t.customVersion h.customVersion then t :: h :: rest
    else if 0 < vc h.customVersion t.customVersion then h :: insertT vc t rest
    else h :: rest

/-- `available_targets` after the candidate loop (`client.cc` lines
224-240): eligible targets inserted in enumeration order into the
version-sorted set. -/
def availableTargets (vc : Str → Str → Int) (hw : Str) (ts : List Target) : List Target :=
  ts.foldl (fun acc t => if eligible hw t then insertT vc t acc else acc) []

/-- The app-matching loop (`client.cc` lines 261-273): walk the target's
apps while `found_but_not_target_apps` (`pending`) is non-empty; an app
absent from the medium is dropped from the shortlist
(`Json::Value::removeMember` by name), a present one is removed from
`pending` (`std::list::remove`, all copies). -/
def appsLoopGo (found_apps : List Str) :
    List TargetApp → List Str → List TargetApp → List Str × List TargetApp
  | [], pending, shortlist => (pending, shortlist)
  | a :: rest, pending, shortlist =>
    if pending = [] then (pending, shortlist)
    else if found_apps.contains a.uri then
      appsLoopGo found_apps rest (pending.filter (fun u => u ≠ a.uri)) shortlist
    else
      appsLoopGo found_apps rest pending (shortlist.filter (fun p => p.name ≠ a.name))

/-- The candidate walk (`client.cc` lines 249-282): first version-sorted
candidate whose ostree commit is on the medium and whose apps cover every
medium app is accepted, with its app map replaced by the shortlist. -/
def findTarget (commits found_apps : List Str) : List Target → Option Target
  | [] => none
  | t :: rest =>
    if commits.contains t.sha256 then
      let lr := appsLoopGo found_apps t.apps found_apps t.apps
      if lr.1 = [] then some { t with apps := lr.2 }
      else findTarget commits found_apps rest
    else findTarget commits found_apps rest

/-- `getTarget(client, src)` with an empty `src.TargetName` (`client.cc`
lines 215-285).  `commits` are the commit hashes of the bundle's ostree
refs, `found_apps` the contents of the bundle's `uri` files (the output of
`parseUpdateContent`); `none` models `Uptane::Target::Unknown()`. -/
def getTargetSel (vc : Str → Str → Int) (hw : Str) (ts : List Target)
    (commits found_apps : List Str) : Option Target :=
  findTarget commits found_apps (availableTargets vc hw ts)

/-! Specification-side descriptions of the selector, written from the
claim's words, to compare against `getTargetSel`. -/

/-- Spec side: the claim's acceptance condition for a candidate — the
target's ostree commit is on the medium and every medium app uri belongs
to the target's app set. -/
def matchesBundle (commits found_apps : List Str) (t : Target) : Prop :=
  t.sha256 ∈ commits ∧ ∀ u ∈ found_apps, ∃ a ∈ t.apps, a.uri = u

instance (commits found_apps : List Str) (t : Target) :
    Decidable (matchesBundle commits found_apps t) := by
  unfold matchesBundle; infer_instance

/-- Spec side: the claim's intersection of a target's app map with the
medium's apps. -/
def appsIntersection (apps : List TargetApp) (found_apps : List Str) : List TargetApp :=
  apps.filter (fun a => found_apps.contains a.uri)

/-- Spec side: a target is retained as a candidate if it is eligible and
occurs in the signed list with no earlier eligible target of an
equal-comparing version (the version-sorted set keeps the first of each
equivalence class). -/
def retained (vc : Str → Str → Int) (hw : Str) (ts : List Target) (t : Target) : Prop :=
  eligible hw t ∧ ∃ pre post, ts = pre ++ t :: post ∧
    ∀ s ∈ pre, eligible hw s → vc s.customVersion t.customVersion ≠ 0

/-- Spec side: `pending` before processing the app at index `k` — the
medium apps not covered by the first `k` target apps. -/
def pendAt (found_apps : List Str) (apps : List TargetApp) (k : Nat) : List Str :=
  found_apps.filter (fun u => ¬ (apps.take k).any (fun a => a.uri = u))

/-- Spec side: the number of target apps actually processed before the
loop's early break — the least `k` with `pendAt … k = []`, else all. -/
def breakIdx (found_apps : List Str) (apps : List TargetApp) : Nat :=
  ((List.range (apps.length + 1)).find? (fun k => pendAt found_apps apps k = [])).getD
    apps.length

/-- Spec side: the app map of the returned target as the code computes it —
apps processed before the break are dropped unless present on the medium;
apps after the break survive unconditionally. -/
def shortlistSpec (found_apps : List Str) (apps : List TargetApp) : List TargetApp :=
  appsIntersection (apps.take (breakIdx found_apps apps)) found_apps ++
    apps.drop (breakIdx found_apps apps)

/-! ## Image registrar (`client.cc` lines 287-328) -/

/-- Strict byte order on strings (`strcmp`-style), the key order of
jsoncpp's `std::map<CZString, Value>`. -/
def strLtB : Str → Str → Bool
  | [], [] => false
  | [], _ :: _ => true
  | _ :: _, [] => false
  | a :: as, b :: bs => if a < b then true else if b < a then false else strLtB as bs

/-- Sorted insert-or-assign into a jsoncpp object member list. -/
def objInsert : List (Str × Jsn) → Str → Jsn → List (Str × Jsn)
  | [], k, v => [(k, v)]
  | (k1, v1) :: rest, k, v =>
    if strLtB k k1 then (k, v) :: (k1, v1) :: rest
    else if strLtB k1 k then (k1, v1) :: objInsert rest k v
    else (k, v) :: rest

/-- `value[k1][k2]… = v`: jsoncpp auto-vivifies missing members (a
non-object value reached on the path becomes an object). -/
def jset : Jsn → List Str → Jsn → Jsn
  | _, [], v => v
  | j, k :: ks, v =>
    let inner := jset (j.get k) ks v
    match j with
    | .obj kvs => .obj (objInsert kvs k inner)
    | _ => .obj [(k, inner)]

/-- One repositories-index assignment produced by `registerApps`:
`Repositories[<host>/<repo>][<pinned ref>] = <config digest>`. -/
structure RegEntry where
  repo : Str
  ref : Str
  dg : Str
  deriving Repr, DecidableEq

/-- The key under which the index holds its map. -/
def repositoriesKey : Str := "Repositories".toList

/-- Apply one assignment to the repositories JSON. -/
def applyEntry (j : Jsn) (e : RegEntry) : Jsn :=
  jset j [repositoriesKey, e.repo, e.ref] (.str e.dg)

/-- The on-disk app store and blob store as read by `registerApps`:
whether `apps/<app>/<hash>` exists, the service image strings of its
compose file (`none` models an unparsable file), `manifests[0].digest` of
`images/<host>/<repo>/<hash>/index.json`, and `config.digest` of
`blobs/sha256/<hash>` (`none` models a missing/unreadable file). -/
structure AppsStore where
  appDirExists : Str → Str → Bool
  services : Str → Str → Option (List Str)
  indexManifestDigest : Str → Str → Str → Option Str
  blobConfigDigest : Str → Option Str

/-- The assignments contributed by one compose service (`client.cc` lines
307-325). -/
def serviceEntries (store : AppsStore) (image_uri_str : Str) : Except String RegEntry :=
  (parseUri image_uri_str false).bind fun image_uri =>
    match store.indexManifestDigest image_uri.registryHostname image_uri.repo
        image_uri.digest.hash with
    | none => .error "cannot read image index"
    | some md =>
      (hashedDigest md).bind fun manifest_digest =>
        match store.blobConfigDigest manifest_digest.hash with
        | none => .error "cannot read image manifest"
        | some cd =>
          (hashedDigest cd).map fun config_digest =>
            ⟨image_uri.registryHostname ++ '/' :: image_uri.repo, image_uri_str,
              config_digest.digest⟩

/-- The assignments contributed by one target app (`client.cc` lines
297-326); a missing app directory contributes nothing. -/
def appEntries (store : AppsStore) (app : TargetApp) : Except String (List RegEntry) :=
  (parseUri app.uri true).bind fun app_uri =>
    if ¬ store.appDirExists app_uri.app app_uri.digest.hash then .ok []
    else
      match store.services app_uri.app app_uri.digest.hash with
      | none => .error "cannot parse compose file"
      | some images => images.mapM (serviceEntries store)

/-- All assignments of one `registerApps` run, in order. -/
def registerEntries (store : AppsStore) (t : Target) : Except String (List RegEntry) :=
  (t.apps.mapM (appEntries store)).map List.flatten

/-- `registerApps(target, apps_store_root, docker_root)` (`client.cc`
lines 287-328) acting on the repositories-index file: read it (or start
from an empty index), apply every assignment, and return the JSON written
back.  A thrown exception is `Except.error` and writes nothing. -/
def registerAppsJson (store : AppsStore) (t : Target) (existing : Option Jsn) :
    Except String Jsn :=
  let repositories := existing.getD (.obj [(repositoriesKey, .obj [])])
  (registerEntries store t).map fun es => es.foldl applyEntry repositories

mutual

/-- A deterministic serializer standing for jsoncpp's writer in
`Utils::writeFile(path, json)`: equal values produce byte-identical
files. -/
def writeJsn : Jsn → Str
  | .null => "null".toList
  | .str s => '"' :: s ++ ['"']
  | .obj kvs => '\x7b' :: (writeJsnMembers kvs) ++ ['\x7d']
  | .arr xs => '[' :: (writeJsnElems xs) ++ [']']

/-- Serialize object members. -/
def writeJsnMembers : List (Str × Jsn) → Str
  | [] => []
  | (k, v) :: rest => '"' :: k ++ '"' :: ':' :: writeJsn v ++ ',' :: writeJsnMembers rest

/-- Serialize array elements. -/
def writeJsnElems : List Jsn → Str
  | [] => []
  | v :: rest => writeJsn v ++ ',' :: writeJsnElems rest

end

/-! ## The offline `run` driver (`client.cc` lines 364-395) -/

/-- The `LiteClient` collaborator operations used by `run`:
`checkImageMetaOffline`, the signed target list and device hardware id
(feeding `getTarget`), `getCurrent`, `download`, `install` (its
`data::ResultCode::Numeric` result), `finalizeInstall` and
`isTargetActive`. -/
structure ClientOps where
  checkImageMetaOffline : Bool
  allTargets : List Target
  hw : Str
  current : Target
  downloadOk : Bool
  installResult : Nat
  finalizeOk : Bool
  isTargetActive : Target → Bool

/-- `offline::client::run(cfg, src)` (`client.cc` lines 364-395), with the
bundle contents (`commits`, `found_apps`) as in `getTargetSel`.  On the
booted-commit fast path the code executes `client->install(target);` and
discards its result (`client.cc` line 388); the model mirrors this by not
consulting `installResult` there. -/
def runOffline (vc : Str → Str → Int) (c : ClientOps) (commits found_apps : List Str) :
    Except String Unit :=
  if ¬ c.checkImageMetaOffline then .error "Invalid local TUF metadata"
  else
    match getTargetSel vc c.hw c.allTargets commits found_apps with
    | none => .error "Target to run has not been found"
    | some target =>
      let staged : Except String Unit :=
        if c.current.sha256 ≠ target.sha256 then
          if ¬ c.finalizeOk then .error "Failed to run Target" else .ok ()
        else
          if ¬ c.downloadOk then .error "Failed to download Target"
          else
            let «_install_res» := c.installResult
            .ok ()
      staged.bind fun _ =>
        if ¬ c.isTargetActive target then
          .error "The installed Target is not running"
        else .ok ()

/-! ## A concrete comparator for witnesses -/

/-- Plain lexicographic three-way string comparison: a concrete total
comparator used to instantiate the `strverscmp` parameter in witnesses. -/
def strCmpC : Str → Str → Int
  | [], [] => 0
  | [], _ :: _ => -1
  | _ :: _, [] => 1
  | a :: as, b :: bs => if a < b then -1 else if b < a then 1 else strCmpC as bs

/-- Whether an `Except` computation succeeded (an un-thrown C++ call). -/
def exOk {α : Type} : Except String α → Bool
  | .ok _ => true
  | .error _ => false

/-! # Theorems -/

lemma lowerStr_length (s : Str) : (lowerStr s).length = s.length := by
  simp [lowerStr]

/-- C7 counterexample: the constructor accepts `sha256:` followed by 64
characters that are not hexadecimal, which the claim says must be a
construction-time failure. -/
theorem hashedDigest_c7_counterexample :
    hashedDigest ("sha256:".toList ++ List.replicate 64 'z')
      = .ok ⟨"sha256:".toList ++ List.replicate 64 'z', List.replicate 64 'z',
          List.replicate 7 'z'⟩ := by
  rfl

/-- C7 (amended): construction from `s` succeeds exactly when the
ASCII-lower-casing of `s` starts with the literal `sha256:` and is
followed by exactly 64 further characters (no hexadecimal check is
performed); on success the stored hex is the lower-cased remainder and the
short hash is its first 7 characters. -/
theorem hashedDigest_characterization (s : Str) :
    (exOk (hashedDigest s) = true ↔
      substr (lowerStr s) 0 digestType.length = digestType ∧ s.length = 71) ∧
    (∀ hd, hashedDigest s = .ok hd →
      hd.digest = lowerStr s ∧ hd.hash = (lowerStr s).drop 7 ∧
        hd.hash.length = 64 ∧ hd.shortHash = ((lowerStr s).drop 7).take 7) := by
  have hl := lowerStr_length s
  have hDT : digestType.length = 7 := by decide
  constructor
  · simp only [hashedDigest]
    constructor
    · intro hok
      split at hok
      · exact absurd hok (by simp [exOk])
      · split at hok
        · exact absurd hok (by simp [exOk])
        · rename_i hpre hlen
          push_neg at hpre hlen
          refine ⟨hpre.symm, ?_⟩
          have h7 : 7 ≤ (lowerStr s).length := by
            have hct := congrArg List.length hpre
            simp only [substr, List.drop_zero, List.length_take, hDT] at hct
            omega
          simp only [List.length_drop, hDT] at hlen
          omega
    · intro hc
      have hpre : ¬ (digestType ≠ substr (lowerStr s) 0 digestType.length) := by
        simp [hc.1]
      have hlen : ¬ (((lowerStr s).drop digestType.length).length ≠ 64) := by
        simp only [List.length_drop, hDT, hl, hc.2]
        omega
      rw [if_neg hpre, if_neg hlen]
      rfl
  · intro hd h
    simp only [hashedDigest] at h
    split at h
    · exact absurd h (by simp)
    · split at h
      · exact absurd h (by simp)
      · rename_i hlen
        push_neg at hlen
        have hhd := h
        simp only [Except.ok.injEq] at hhd
        subst hhd
        refine ⟨rfl, by rw [hDT], ?_, ?_⟩
        · simpa [hDT] using hlen
        · simp [substr, hDT]

/-- C7 witness: the characterization applied to the concrete input
`SHA256:` followed by 64 letters `a` (mixed-case prefix, lower-cased
output). -/
theorem hashedDigest_characterization_witness :
    (⟨"sha256:".toList ++ List.replicate 64 'a', List.replicate 64 'a',
        List.replicate 7 'a'⟩ : HashedDigest).digest
      = lowerStr ("SHA256:".toList ++ List.replicate 64 'a') ∧
    (⟨"sha256:".toList ++ List.replicate 64 'a', List.replicate 64 'a',
        List.replicate 7 'a'⟩ : HashedDigest).hash
      = (lowerStr ("SHA256:".toList ++ List.replicate 64 'a')).drop 7 ∧
    (List.replicate 64 'a' : Str).length = 64 ∧
    (⟨"sha256:".toList ++ List.replicate 64 'a', List.replicate 64 'a',
        List.replicate 7 'a'⟩ : HashedDigest).shortHash
      = ((lowerStr ("SHA256:".toList ++ List.replicate 64 'a')).drop 7).take 7 := by
  exact (hashedDigest_characterization ("SHA256:".toList ++ List.replicate 64 'a')).2
    ⟨"sha256:".toList ++ List.replicate 64 'a', List.replicate 64 'a',
      List.replicate 7 'a'⟩ (by rfl)

lemma findChar_eq_none {s : Str} {c : Char} : findChar s c = none ↔ c ∉ s := by
  induction s with
  | nil => simp [findChar]
  | cons a as ih =>
    rw [findChar]
    by_cases ha : a = c
    · simp [ha]
    · rw [if_neg ha]
      simp only [Option.map_eq_none', ih, List.mem_cons, not_or]
      exact ⟨fun h => ⟨fun hc => ha hc.symm, h⟩, fun h => h.2⟩

lemma rfindChar_eq_none {s : Str} {c : Char} : rfindChar s c = none ↔ c ∉ s := by
  induction s with
  | nil => simp [rfindChar]
  | cons a as ih =>
    rw [rfindChar]
    cases hr : rfindChar as c with
    | some i => simp [← ih, hr]
    | none =>
      by_cases ha : a = c
      · simp [ha, ← ih, hr]
      · simp [ha, ← ih, hr]
        exact fun h => ha h.symm

lemma rfindChar_split {s : Str} {c : Char} {p : Nat} (h : rfindChar s c = some p) :
    p < s.length ∧ s = s.take p ++ c :: s.drop (p + 1) ∧ c ∉ s.drop (p + 1) := by
  induction s generalizing p with
  | nil => simp [rfindChar] at h
  | cons a as ih =>
    rw [rfindChar] at h
    cases hr : rfindChar as c with
    | some i =>
      rw [hr] at h
      simp only [Option.some.injEq] at h
      subst h
      obtain ⟨h1, h2, h3⟩ := ih hr
      refine ⟨by simp [List.length_cons]; omega, ?_, ?_⟩
      · simpa [List.take_succ_cons, List.drop_succ_cons] using h2
      · simpa [List.drop_succ_cons] using h3
    | none =>
      rw [hr] at h
      by_cases ha : a = c
      · rw [if_pos ha] at h
        simp only [Option.some.injEq] at h
        subst h
        subst ha
        refine ⟨by simp, by simp, ?_⟩
        simpa using rfindChar_eq_none.mp hr
      · rw [if_neg ha] at h
        exact absurd h (by simp)

lemma count_one_of_rfind_split {s : Str} {c : Char} {p : Nat}
    (h : rfindChar s c = some p) (hpre : c ∉ s.take p) : s.count c = 1 := by
  obtain ⟨_, h2, h3⟩ := rfindChar_split h
  conv_lhs => rw [h2]
  rw [List.count_append, List.count_cons_self,
    List.count_eq_zero.mpr hpre, List.count_eq_zero.mpr h3]

/-- C6 counterexample: the input below contains two at-signs; its suffix
after the LAST at-sign is a well-formed digest (and that at-sign neither
precedes nor abuts the first slash), so by the claim the parse would
succeed — but `parseUri` splits at the FIRST at-sign and rejects. -/
theorem parseUri_c6_counterexample :
    exOk (parseUri ("h/r@x@sha256:".toList ++ List.replicate 64 'a') false) = false ∧
    rfindChar ("h/r@x@sha256:".toList ++ List.replicate 64 'a') '@' = some 5 ∧
    exOk (hashedDigest (("h/r@x@sha256:".toList ++ List.replicate 64 'a').drop 6)) = true ∧
    findChar ("h/r@x@sha256:".toList ++ List.replicate 64 'a') '/' = some 1 := by
  exact ⟨rfl, rfl, rfl, rfl⟩

/-- C6 (amended): `Uri::parseUri` splits `s` at the first `/` (prefix
becomes the registry host) and at the FIRST `@` (suffix becomes the
digest); it fails when there is no `@`, no `/`, or when the `@` precedes
or abuts the first `/`; the middle segment (the repo) is split at its last
`/` into (factory, app) or (empty, app); and in factory mode success
implies the repo contains exactly one `/` with a non-empty factory part. -/
theorem parseUri_characterization (s : Str) (fm : Bool) :
    (findChar s '@' = none → parseUri s fm = .error "Invalid URI: digest not found") ∧
    (∀ sp, findChar s '@' = some sp → findChar s '/' = none →
      parseUri s fm = .error "Invalid URI: image name is not found") ∧
    (∀ sp np, findChar s '@' = some sp → findChar s '/' = some np → sp ≤ np + 1 →
      parseUri s fm = .error "Invalid URI: image name is not present before digest") ∧
    (∀ u, parseUri s fm = .ok u →
      ∃ sp np, findChar s '@' = some sp ∧ findChar s '/' = some np ∧ np + 1 < sp ∧
        u.registryHostname = s.take np ∧
        u.repo = substr s (np + 1) (sp - np - 1) ∧
        hashedDigest (s.drop (sp + 1)) = .ok u.digest ∧
        ((∃ p, rfindChar u.repo '/' = some p ∧ u.factory = u.repo.take p ∧
            u.app = u.repo.drop (p + 1)) ∨
          (rfindChar u.repo '/' = none ∧ u.factory = [] ∧ u.app = u.repo)) ∧
        (fm = true → u.repo.count '/' = 1 ∧ u.factory ≠ [])) := by
  refine ⟨?_, ?_, ?_, ?_⟩
  · intro h
    simp [parseUri, h]
  · intro sp h1 h2
    simp [parseUri, h1, h2]
  · intro sp np h1 h2 h3
    simp [parseUri, h1, h2, if_pos h3]
  · intro u h
    simp only [parseUri] at h
    split at h
    · exact absurd h (by simp)
    · rename_i sp h1
      split at h
      · exact absurd h (by simp)
      · rename_i np h2
        split at h
        · exact absurd h (by simp)
        · rename_i h3
          push_neg at h3
          refine ⟨sp, np, h1, h2, h3, ?_⟩
          cases hrf : rfindChar (substr s (np + 1) (sp - np - 1)) '/' with
          | some p =>
            rw [hrf] at h
            simp only at h
            split at h
            · exact absurd h (by simp)
            · rename_i hfam
              cases hhd : hashedDigest (s.drop (sp + 1)) with
              | error e => rw [hhd] at h; exact absurd h (by simp [Except.map])
              | ok hd =>
                rw [hhd] at h
                simp only [Except.map, Except.ok.injEq] at h
                subst h
                refine ⟨rfl, rfl, by simpa using hhd, ?_, ?_⟩
                · exact Or.inl ⟨p, hrf, by simp [substr], rfl⟩
                · intro hfmt
                  subst hfmt
                  simp only [true_and, not_or] at hfam
                  obtain ⟨hne, hnf⟩ := hfam
                  refine ⟨count_one_of_rfind_split hrf ?_, ?_⟩
                  · have := Option.not_isSome_iff_eq_none.mp hnf
                    rw [findChar_eq_none] at this
                    simpa [substr] using this
                  · simpa [substr] using hne
          | none =>
            rw [hrf] at h
            simp only at h
            split at h
            · exact absurd h (by simp)
            · rename_i hfam
              cases hhd : hashedDigest (s.drop (sp + 1)) with
              | error e => rw [hhd] at h; exact absurd h (by simp [Except.map])
              | ok hd =>
                rw [hhd] at h
                simp only [Except.map, Except.ok.injEq] at h
                subst h
                refine ⟨rfl, rfl, by simpa using hhd, Or.inr ⟨hrf, rfl, rfl⟩, ?_⟩
                intro hfmt
                subst hfmt
                simp at hfam

/-- C6 witness: the characterization's success clause applied to the
concrete factory-mode reference below. -/
theorem parseUri_characterization_witness :
    ∃ sp np,
      findChar ("hub.io/fac/app@sha256:".toList ++ List.replicate 64 'a') '@' = some sp ∧
      findChar ("hub.io/fac/app@sha256:".toList ++ List.replicate 64 'a') '/' = some np ∧
      np + 1 < sp ∧
      (⟨⟨"sha256:".toList ++ List.replicate 64 'a', List.replicate 64 'a',
          List.replicate 7 'a'⟩, "app".toList, "fac".toList, "fac/app".toList,
        "hub.io".toList⟩ : Uri).registryHostname
        = ("hub.io/fac/app@sha256:".toList ++ List.replicate 64 'a').take np ∧
      (⟨⟨"sha256:".toList ++ List.replicate 64 'a', List.replicate 64 'a',
          List.replicate 7 'a'⟩, "app".toList, "fac".toList, "fac/app".toList,
        "hub.io".toList⟩ : Uri).repo
        = substr ("hub.io/fac/app@sha256:".toList ++ List.replicate 64 'a') (np + 1)
            (sp - np - 1) ∧
      hashedDigest (("hub.io/fac/app@sha256:".toList ++ List.replicate 64 'a').drop (sp + 1))
        = .ok (⟨⟨"sha256:".toList ++ List.replicate 64 'a', List.replicate 64 'a',
            List.replicate 7 'a'⟩, "app".toList, "fac".toList, "fac/app".toList,
          "hub.io".toList⟩ : Uri).digest ∧
      ((∃ p, rfindChar (⟨⟨"sha256:".toList ++ List.replicate 64 'a', List.replicate 64 'a',
            List.replicate 7 'a'⟩, "app".toList, "fac".toList, "fac/app".toList,
          "hub.io".toList⟩ : Uri).repo '/' = some p ∧
          (⟨⟨"sha256:".toList ++ List.replicate 64 'a', List.replicate 64 'a',
              List.replicate 7 'a'⟩, "app".toList, "fac".toList, "fac/app".toList,
            "hub.io".toList⟩ : Uri).factory
            = (⟨⟨"sha256:".toList ++ List.replicate 64 'a', List.replicate 64 'a',
                List.replicate 7 'a'⟩, "app".toList, "fac".toList, "fac/app".toList,
              "hub.io".toList⟩ : Uri).repo.take p ∧
          (⟨⟨"sha256:".toList ++ List.replicate 64 'a', List.replicate 64 'a',
              List.replicate 7 'a'⟩, "app".toList, "fac".toList, "fac/app".toList,
            "hub.io".toList⟩ : Uri).app
            = (⟨⟨"sha256:".toList ++ List.replicate 64 'a', List.replicate 64 'a',
                List.replicate 7 'a'⟩, "app".toList, "fac".toList, "fac/app".toList,
              "hub.io".toList⟩ : Uri).repo.drop (p + 1)) ∨
        (rfindChar (⟨⟨"sha256:".toList ++ List.replicate 64 'a', List.replicate 64 'a',
            List.replicate 7 'a'⟩, "app".toList, "fac".toList, "fac/app".toList,
          "hub.io".toList⟩ : Uri).repo '/' = none ∧
          (⟨⟨"sha256:".toList ++ List.replicate 64 'a', List.replicate 64 'a',
              List.replicate 7 'a'⟩, "app".toList, "fac".toList, "fac/app".toList,
            "hub.io".toList⟩ : Uri).factory = [] ∧
          (⟨⟨"sha256:".toList ++ List.replicate 64 'a', List.replicate 64 'a',
              List.replicate 7 'a'⟩, "app".toList, "fac".toList, "fac/app".toList,
            "hub.io".toList⟩ : Uri).app
            = (⟨⟨"sha256:".toList ++ List.replicate 64 'a', List.replicate 64 'a',
                List.replicate 7 'a'⟩, "app".toList, "fac".toList, "fac/app".toList,
              "hub.io".toList⟩ : Uri).repo)) ∧
      (true = true →
        (⟨⟨"sha256:".toList ++ List.replicate 64 'a', List.replicate 64 'a',
            List.replicate 7 'a'⟩, "app".toList, "fac".toList, "fac/app".toList,
          "hub.io".toList⟩ : Uri).repo.count '/' = 1 ∧
        (⟨⟨"sha256:".toList ++ List.replicate 64 'a', List.replicate 64 'a',
            List.replicate 7 'a'⟩, "app".toList, "fac".toList, "fac/app".toList,
          "hub.io".toList⟩ : Uri).factory ≠ []) := by
  exact (parseUri_characterization
      ("hub.io/fac/app@sha256:".toList ++ List.replicate 64 'a') true).2.2.2
    ⟨⟨"sha256:".toList ++ List.replicate 64 'a', List.replicate 64 'a',
        List.replicate 7 'a'⟩, "app".toList, "fac".toList, "fac/app".toList,
      "hub.io".toList⟩ (by rfl)

lemma ctxWrite_expected (ctx : DownloadCtx) (data : Bytes) :
    (ctxWrite ctx data).1.expected = ctx.expected := by
  simp only [ctxWrite]
  split
  · rfl
  · split
    · rfl
    · rfl

lemma osWrite_pos_le (s : OStream) (data : Bytes) :
    (osWrite s data).pos ≤ s.pos + data.length := by
  simp only [osWrite]
  split
  · simp only []
    omega
  · omega

lemma ctxWrite_written_le {ctx : DownloadCtx} (data : Bytes)
    (h : ctx.written ≤ ctx.expected) : (ctxWrite ctx data).1.written ≤ ctx.expected := by
  simp only [ctxWrite]
  split
  · exact h
  · split
    · exact h
    · rename_i hover hgood
      push_neg at hover
      have hos := osWrite_pos_le ctx.out data
      simp only []
      omega


lemma ctxFold_written_le (chunks : List Bytes) (ctx : DownloadCtx)
    (h : ctx.written ≤ ctx.expected) :
    (chunks.foldl (fun c d => (ctxWrite c d).1) ctx).written ≤ ctx.expected := by
  induction chunks generalizing ctx with
  | nil => simpa using h
  | cons c rest ih =>
    simp only [List.foldl_cons]
    have h1 := @ctxWrite_written_le ctx c h
    have h2 := ctxWrite_expected ctx c
    have h3 := ih (ctxWrite ctx c).1 (by rw [h2]; exact h1)
    rwa [h2] at h3

/-- C3: per-chunk behaviour of the download write callback.  (1) An
over-length chunk returns size+1 and changes nothing but
`received_size`; (2) a bad sink likewise; (3) otherwise the chunk is
written, all `size` input bytes (not the written delta) are fed to the
rolling hasher, `written_size` advances by the sink position delta `d`
and `d` is returned; and the invariant `written ≤ expected` is preserved
by one call and across any sequence of calls. -/
theorem ctxWrite_c3_behavior (ctx : DownloadCtx) (data : Bytes) (chunks : List Bytes) :
    (ctx.expected < ctx.written + data.length →
      ctxWrite ctx data = ({ ctx with received := ctx.written + data.length },
        data.length + 1)) ∧
    (ctx.written + data.length ≤ ctx.expected → ctx.out.good = false →
      ctxWrite ctx data = ({ ctx with received := ctx.written + data.length },
        data.length + 1)) ∧
    (ctx.written + data.length ≤ ctx.expected → ctx.out.good = true →
      (ctxWrite ctx data).1.out = osWrite ctx.out data ∧
      (ctxWrite ctx data).1.hashed = ctx.hashed ++ data ∧
      (ctxWrite ctx data).1.expected = ctx.expected ∧
      (ctxWrite ctx data).1.written
        = ctx.written + ((osWrite ctx.out data).pos - ctx.out.pos) ∧
      (ctxWrite ctx data).1.received = ctx.written + data.length ∧
      (ctxWrite ctx data).2 = (osWrite ctx.out data).pos - ctx.out.pos) ∧
    (ctx.written ≤ ctx.expected → (ctxWrite ctx data).1.written ≤ ctx.expected) ∧
    (ctx.written ≤ ctx.expected →
      (chunks.foldl (fun c d => (ctxWrite c d).1) ctx).written ≤ ctx.expected) := by
  refine ⟨?_, ?_, ?_, fun h => ctxWrite_written_le data h,
    fun h => ctxFold_written_le chunks ctx h⟩
  · intro h
    simp only [ctxWrite]
    rw [if_pos h]
  · intro h hg
    simp only [ctxWrite]
    rw [if_neg (by omega), if_pos (by simp [hg])]
  · intro h hg
    simp only [ctxWrite]
    rw [if_neg (by omega), if_neg (by simp [hg])]
    exact ⟨rfl, rfl, rfl, rfl, rfl, rfl⟩

/-- C3 witness: the behaviour theorem applied to concrete contexts — the
normal-path clause on a good context with room, and the invariant clause
across a concrete chunk sequence. -/
theorem ctxWrite_c3_behavior_witness :
    ((ctxWrite ⟨⟨[7], 1, 10, true⟩, [7], 5, 1, 1⟩ [8, 9]).1.hashed = [7] ++ [8, 9] ∧
      (ctxWrite ⟨⟨[7], 1, 10, true⟩, [7], 5, 1, 1⟩ [8, 9]).2
        = (osWrite (⟨[7], 1, 10, true⟩ : OStream) [8, 9]).pos - 1) ∧
    (([[1], [2, 3], [4, 5, 6], [9]].foldl (fun c d => (ctxWrite c d).1)
        ⟨⟨[], 0, 10, true⟩, [], 4, 0, 0⟩).written ≤ 4) := by
  refine ⟨?_, ?_⟩
  · have h := (ctxWrite_c3_behavior ⟨⟨[7], 1, 10, true⟩, [7], 5, 1, 1⟩ [8, 9] []).2.2.1
      (by decide) (by decide)
    exact ⟨h.2.1, h.2.2.2.2.2⟩
  · exact (ctxWrite_c3_behavior ⟨⟨[], 0, 10, true⟩, [], 4, 0, 0⟩ []
      [[1], [2, 3], [4, 5, 6], [9]]).2.2.2.2 (by decide)

/-- C4: `getAppManifest` returns the response body only when (a) the body
length equals `expected_size` exactly when one was supplied, and does not
exceed the default cap otherwise, and (b) the SHA-256 of the body equals
the pinned digest hex; any size or digest mismatch is an error with no
body returned. -/
theorem getAppManifest_c4_size_digest (Hs : Str → Str) (w : RegistryWorld) (uri : Uri)
    (format : Str) (manifest_size : Option Nat) (body : Str) (log : List (List Str))
    (h : getAppManifest Hs w uri format manifest_size = .ok (body, log)) :
    (∀ n, manifest_size = some n → body.length = n) ∧
    (manifest_size = none → body.length ≤ defManifestMaxSize) ∧
    Hs body = uri.digest.hash := by
  simp only [getAppManifest] at h
  cases hst : manifestAuthStage w uri format with
  | error e => rw [hst] at h; exact absurd h (by simp [Except.bind])
  | ok pr =>
    rw [hst] at h
    simp only [Except.bind] at h
    split at h
    · exact absurd h (by simp)
    · split at h
      · exact absurd h (by simp)
      · rename_i hok hsize
        split at h
        · exact absurd h (by simp)
        · rename_i hhash
          push_neg at hhash
          simp only [Except.ok.injEq, Prod.mk.injEq] at h
          obtain ⟨hb, _⟩ := h
          subst hb
          refine ⟨?_, ?_, hhash⟩
          · intro n hn
            rw [hn] at hsize
            simpa using hsize
          · intro hn
            rw [hn] at hsize
            simpa using hsize

/-- C4 witness: a concrete successful fetch — pinned size 3, matching
digest — evaluated through the theorem. -/
theorem getAppManifest_c4_size_digest_witness :
    ("abc".toList.length = 3) ∧
    ((fun _ => List.replicate 64 'e') "abc".toList
      = (⟨⟨"sha256:".toList ++ List.replicate 64 'e', List.replicate 64 'e',
          List.replicate 7 'e'⟩, "app".toList, [], "r".toList, "h".toList⟩ : Uri).digest.hash) := by
  have h := getAppManifest_c4_size_digest (fun _ => List.replicate 64 'e')
    ⟨fun _ _ => ⟨"abc".toList, 200, [], .null⟩, ⟨[], 200, [], .null⟩,
      fun _ _ => ⟨[], 200, [], .null⟩, fun _ => ([], ⟨[], 200, [], .null⟩)⟩
    ⟨⟨"sha256:".toList ++ List.replicate 64 'e', List.replicate 64 'e',
        List.replicate 7 'e'⟩, "app".toList, [], "r".toList, "h".toList⟩
    "fmt".toList (some 3) "abc".toList
    [["accept:".toList ++ "fmt".toList]] (by rfl)
  exact ⟨h.1 3 rfl, h.2.2⟩

/-- C5 counterexample: with the claim's exact header value (capital-B
`Bearer realm=…`) under `www-authenticate` and a token endpoint answering
the token `T`, the call does not retry and succeed: `BearerAuth` requires
the lowercase `bearer` prefix (`boost::starts_with` is case-sensitive)
and the call throws while parsing the challenge. -/
theorem getAppManifest_c5_counterexample :
    getAppManifest (fun _ => List.replicate 64 'e')
      ⟨fun _ hs =>
          if hs.length = 1 then
            ⟨"x".toList, 401,
              [(wwwAuthenticate,
                "Bearer realm=\"https://x/t\",service=\"s\",scope=\"repository:r:pull\"".toList)],
              .null⟩
          else ⟨"abc".toList, 200, [], .null⟩,
        ⟨"c".toList, 200, [], .obj [("Username".toList, .str "u".toList),
          ("Secret".toList, .str "p".toList)]⟩,
        fun _ _ => ⟨"t".toList, 200, [], .obj [("token".toList, .str "T".toList)]⟩,
        fun _ => ([], ⟨[], 200, [], .null⟩)⟩
      ⟨⟨"sha256:".toList ++ List.replicate 64 'e', List.replicate 64 'e',
          List.replicate 7 'e'⟩, "app".toList, [], "r".toList, "h".toList⟩
      "fmt".toList (some 3)
      = .error "Unsupported authentication type to access Registry" ∧
    bearerAuth
        ("Bearer realm=\"https://x/t\",service=\"s\",scope=\"repository:r:pull\"".toList)
      = .error "Unsupported authentication type to access Registry" := by
  exact ⟨rfl, rfl⟩

/-- C5 (amended): if the first manifest request returns 401 with the
lowercase header value `bearer realm="https://x/t",service="s",
scope="repository:r:pull"` under `www-authenticate`, the credentials
endpoint succeeds with user `u` and secret `p`, and the token endpoint —
queried at `https://x/t?service=s&scope=repository:r:pull` with the basic
header — returns the token `T`, then `getAppManifest` retries exactly
once, the second request carries `authorization: bearer T`, and the call
succeeds when the second response is 200 with a body of the pinned size
and digest. -/
theorem getAppManifest_c5_bearer_retry (Hs : Str → Str) (w : RegistryWorld) (uri : Uri)
    (format body : Str) (n : Nat)
    (h401 : (w.manifestResp (composeManifestUrl uri)
        ["accept:".toList ++ format]).status = 401)
    (hww : getHeader (w.manifestResp (composeManifestUrl uri)
          ["accept:".toList ++ format]) wwwAuthenticate
      = some ("bearer realm=\"https://x/t\",service=\"s\",scope=\"repository:r:pull\"".toList))
    (hcredsOk : isOk w.credsResp = true)
    (huser : (w.credsResp.json.get "Username".toList).asString = "u".toList)
    (hsecret : (w.credsResp.json.get "Secret".toList).asString = "p".toList)
    (htok : w.tokenResp ("https://x/t?service=s&scope=repository:r:pull".toList)
        ["authorization: basic ".toList ++ toBase64 "u:p".toList]
      = ⟨"tk".toList, 200, [], .obj [("token".toList, .str "T".toList)]⟩)
    (h2 : w.manifestResp (composeManifestUrl uri)
        ["accept:".toList ++ format, "authorization: bearer T".toList]
      = ⟨body, 200, [], .null⟩)
    (hlen : body.length = n)
    (hdig : Hs body = uri.digest.hash) :
    getAppManifest Hs w uri format (some n)
      = .ok (body, [["accept:".toList ++ format],
          ["accept:".toList ++ format, "authorization: bearer T".toList]]) := by
  have hba : bearerAuth
      ("bearer realm=\"https://x/t\",service=\"s\",scope=\"repository:r:pull\"".toList)
      = .ok ⟨"https://x/t".toList, "s".toList, "repository:r:pull".toList⟩ := rfl
  have hbasic : getBasicAuthHeader w
      = .ok ("authorization: basic ".toList ++ toBase64 "u:p".toList) := by
    simp only [getBasicAuthHeader, hcredsOk, huser, hsecret]
    norm_num
  have hbear : getBearerAuthHeader w
      ⟨"https://x/t".toList, "s".toList, "repository:r:pull".toList⟩
      = .ok ("authorization: bearer T".toList) := by
    simp only [getBearerAuthHeader, hbasic, Except.bind]
    have hu : bearerUri ⟨"https://x/t".toList, "s".toList, "repository:r:pull".toList⟩
        = "https://x/t?service=s&scope=repository:r:pull".toList := rfl
    rw [hu, htok]
    norm_num [isOk, Jsn.get, Jsn.asString]
  have hstage : manifestAuthStage w uri format
      = .ok (⟨body, 200, [], .null⟩,
          [["accept:".toList ++ format],
            ["accept:".toList ++ format, "authorization: bearer T".toList]]) := by
    simp only [manifestAuthStage]
    rw [if_pos h401, hww]
    simp only [hba, Except.bind, hbear, Except.map]
    rw [← h2]
    rfl
  simp only [getAppManifest, hstage, Except.bind]
  rw [if_neg (by norm_num [isOk])]
  norm_num [hlen, hdig]

/-- C5 witness: the retry theorem applied to a concrete world whose
transport answers 401 with the lowercase challenge on the first request
and 200 with the pinned 3-byte body only to the request that carries
`authorization: bearer T`. -/
theorem getAppManifest_c5_bearer_retry_witness :
    getAppManifest (fun _ => List.replicate 64 'e')
      ⟨fun _ hs =>
          if hs = ["accept:".toList ++ "fmt".toList] then
            ⟨"x".toList, 401,
              [(wwwAuthenticate,
                "bearer realm=\"https://x/t\",service=\"s\",scope=\"repository:r:pull\"".toList)],
              .null⟩
          else
            if hs = ["accept:".toList ++ "fmt".toList, "authorization: bearer T".toList] then
              ⟨"abc".toList, 200, [], .null⟩
            else ⟨[], 500, [], .null⟩,
        ⟨"c".toList, 200, [], .obj [("Secret".toList, .str "p".toList),
          ("Username".toList, .str "u".toList)]⟩,
        fun _ _ => ⟨"tk".toList, 200, [], .obj [("token".toList, .str "T".toList)]⟩,
        fun _ => ([], ⟨[], 200, [], .null⟩)⟩
      ⟨⟨"sha256:".toList ++ List.replicate 64 'e', List.replicate 64 'e',
          List.replicate 7 'e'⟩, "app".toList, [], "r".toList, "h".toList⟩
      "fmt".toList (some 3)
      = .ok ("abc".toList, [["accept:".toList ++ "fmt".toList],
          ["accept:".toList ++ "fmt".toList, "authorization: bearer T".toList]]) := by
  exact getAppManifest_c5_bearer_retry (fun _ => List.replicate 64 'e') _ _
    "fmt".toList "abc".toList 3 (by rfl) (by rfl) (by rfl) (by rfl) (by rfl)
    (by rfl) (by rfl) (by rfl) (by rfl)

lemma take_append_len {α : Type} (A B : List α) (k : Nat) :
    (A ++ B).take (A.length + k) = A ++ B.take k := by
  rw [List.take_append_eq_append_take, List.take_all_of_le (by omega),
    Nat.add_sub_cancel_left]

lemma drop_append_len {α : Type} (A B : List α) (k : Nat) :
    (A ++ B).drop (A.length + k) = B.drop k := by
  rw [List.drop_append_eq_append_drop, List.drop_eq_nil_of_le (by omega),
    Nat.add_sub_cancel_left, List.nil_append]

/-- A transfer whose total size fits both the expected size and the device
capacity runs to completion: nothing aborts, the chunks are written
contiguously at the starting position, and every byte is hashed. -/
lemma runChunks_success (chunks : List Bytes) (ctx : DownloadCtx)
    (hg : ctx.out.good = true) (hpw : ctx.out.pos = ctx.written)
    (hpl : ctx.out.pos ≤ ctx.out.content.length)
    (hsum : ctx.written + (chunks.map List.length).sum ≤ ctx.expected)
    (hlim : ctx.out.pos + (chunks.map List.length).sum ≤ ctx.out.limit) :
    (runChunks ctx chunks).2 = true ∧
    (runChunks ctx chunks).1.out.content
      = ctx.out.content.take ctx.out.pos ++ chunks.flatten ++
        ctx.out.content.drop (ctx.out.pos + chunks.flatten.length) ∧
    (runChunks ctx chunks).1.out.pos = ctx.out.pos + chunks.flatten.length ∧
    (runChunks ctx chunks).1.out.limit = ctx.out.limit ∧
    (runChunks ctx chunks).1.out.good = true ∧
    (runChunks ctx chunks).1.hashed = ctx.hashed ++ chunks.flatten ∧
    (runChunks ctx chunks).1.written = ctx.written + chunks.flatten.length ∧
    (runChunks ctx chunks).1.expected = ctx.expected := by
  induction chunks generalizing ctx with
  | nil =>
    refine ⟨rfl, ?_, ?_, rfl, hg, ?_, ?_, rfl⟩ <;> simp [runChunks]
  | cons c rest ih =>
    have hc_le : ctx.written + c.length ≤ ctx.expected := by
      simp only [List.map_cons, List.sum_cons] at hsum
      omega
    have hw_full : min c.length (ctx.out.limit - ctx.out.pos) = c.length := by
      simp only [List.map_cons, List.sum_cons] at hlim
      omega
    have hos : osWrite ctx.out c
        = { content := ctx.out.content.take ctx.out.pos ++ c ++
              ctx.out.content.drop (ctx.out.pos + c.length),
            pos := ctx.out.pos + c.length, limit := ctx.out.limit, good := true } := by
      simp only [osWrite, hg, if_pos, hw_full]
      simp [hw_full]
    have hlen2 : ((osWrite ctx.out c).pos - ctx.out.pos) = c.length := by
      rw [hos]
      simp
    have hcw : ctxWrite ctx c
        = (⟨osWrite ctx.out c, ctx.hashed ++ c, ctx.expected,
            ctx.written + c.length, ctx.written + c.length⟩, c.length) := by
      simp only [ctxWrite]
      rw [if_neg (by omega), if_neg (by simp [hg]), hlen2]
    simp only [runChunks, hcw]
    simp only [if_true]
    set ctx1 : DownloadCtx := ⟨osWrite ctx.out c, ctx.hashed ++ c, ctx.expected,
      ctx.written + c.length, ctx.written + c.length⟩ with hctx1
    have h1g : ctx1.out.good = true := by rw [hctx1, hos]
    have h1pw : ctx1.out.pos = ctx1.written := by
      rw [hctx1, hos]
      simp [hpw]
    have h1pl : ctx1.out.pos ≤ ctx1.out.content.length := by
      rw [hctx1, hos]
      dsimp only
      simp only [List.length_append, List.length_take]
      omega
    have h1sum : ctx1.written + (rest.map List.length).sum ≤ ctx1.expected := by
      rw [hctx1]
      dsimp only
      simp only [List.map_cons, List.sum_cons] at hsum
      omega
    have h1lim : ctx1.out.pos + (rest.map List.length).sum ≤ ctx1.out.limit := by
      rw [hctx1, hos]
      dsimp only
      simp only [List.map_cons, List.sum_cons] at hlim
      omega
    obtain ⟨i1, i2, i3, i4, i5, i6, i7, i8⟩ := ih ctx1 h1g h1pw h1pl h1sum h1lim
    have hTakeLen : (ctx.out.content.take ctx.out.pos).length = ctx.out.pos := by
      simp only [List.length_take]
      omega
    have hTake : ctx1.out.content.take ctx1.out.pos
        = ctx.out.content.take ctx.out.pos ++ c := by
      rw [hctx1, hos]
      simp only []
      rw [show ctx.out.pos + c.length
        = (ctx.out.content.take ctx.out.pos ++ c).length + 0 from by
          simp only [List.length_append, hTakeLen]
          omega]
      rw [take_append_len]
      simp
    have hDrop : ctx1.out.content.drop (ctx1.out.pos + rest.flatten.length)
        = ctx.out.content.drop (ctx.out.pos + (c ++ rest.flatten).length) := by
      rw [hctx1, hos]
      simp only [List.length_append]
      rw [show ctx.out.pos + c.length + rest.flatten.length
        = (ctx.out.content.take ctx.out.pos ++ c).length + rest.flatten.length from by
          simp only [List.length_append, hTakeLen]]
      rw [drop_append_len, List.drop_drop]
      congr 1
      omega
    refine ⟨i1, ?_, ?_, by rw [i4, hctx1, hos], i5, ?_, ?_, by rw [i8, hctx1]⟩
    · rw [i2, hTake, hDrop]
      simp [List.append_assoc]
    · rw [i3, hctx1, hos]
      simp only [List.flatten_cons, List.length_append]
      omega
    · rw [i6, hctx1]
      simp [List.append_assoc]
    · rw [i7, hctx1]
      simp only [List.flatten_cons, List.length_append]
      omega

/-- Invariants of an arbitrary (possibly aborting, possibly short-writing)
transfer started at a context whose sink position equals the written
counter: the position keeps tracking the counter, the file length is the
initial length `max`-ed with the counter, the counter never exceeds the
expected size, and the expected size is unchanged. -/
lemma runChunks_partial_inv (chunks : List Bytes) (ctx : DownloadCtx) (L : Nat)
    (hpw : ctx.out.pos = ctx.written)
    (hcl : ctx.out.content.length = max L ctx.written)
    (hwe : ctx.written ≤ ctx.expected) :
    (runChunks ctx chunks).1.out.pos = (runChunks ctx chunks).1.written ∧
    (runChunks ctx chunks).1.out.content.length
      = max L (runChunks ctx chunks).1.written ∧
    (runChunks ctx chunks).1.written ≤ ctx.expected ∧
    (runChunks ctx chunks).1.expected = ctx.expected := by
  induction chunks generalizing ctx with
  | nil => exact ⟨hpw, hcl, hwe, rfl⟩
  | cons c rest ih =>
    by_cases hov : ctx.expected < ctx.written + c.length
    · have hcw : ctxWrite ctx c
          = ({ ctx with received := ctx.written + c.length }, c.length + 1) := by
        simp only [ctxWrite]
        rw [if_pos hov]
      simp only [runChunks, hcw]
      rw [if_neg (by omega)]
      exact ⟨hpw, hcl, hwe, rfl⟩
    · by_cases hgd : ctx.out.good = true
      · have hos : osWrite ctx.out c
            = { content := ctx.out.content.take ctx.out.pos ++
                  c.take (min c.length (ctx.out.limit - ctx.out.pos)) ++
                  ctx.out.content.drop (ctx.out.pos +
                    min c.length (ctx.out.limit - ctx.out.pos)),
                pos := ctx.out.pos + min c.length (ctx.out.limit - ctx.out.pos),
                limit := ctx.out.limit,
                good := decide (min c.length (ctx.out.limit - ctx.out.pos)
                  = c.length) } := by
          simp only [osWrite]
          rw [if_pos hgd]
        have hlen2 : (osWrite ctx.out c).pos - ctx.out.pos
            = min c.length (ctx.out.limit - ctx.out.pos) := by
          rw [hos]
          simp
        have hcw : ctxWrite ctx c
            = (⟨osWrite ctx.out c, ctx.hashed ++ c, ctx.expected,
                ctx.written + min c.length (ctx.out.limit - ctx.out.pos),
                ctx.written + c.length⟩,
              min c.length (ctx.out.limit - ctx.out.pos)) := by
          simp only [ctxWrite]
          rw [if_neg hov, if_neg (by simp [hgd]), hlen2]
        set ctx2 : DownloadCtx := ⟨osWrite ctx.out c, ctx.hashed ++ c, ctx.expected,
          ctx.written + min c.length (ctx.out.limit - ctx.out.pos),
          ctx.written + c.length⟩ with hctx2
        have j1 : ctx2.out.pos = ctx2.written := by
          rw [hctx2, hos]
          dsimp only
          omega
        have j2 : ctx2.out.content.length = max L ctx2.written := by
          rw [hctx2, hos]
          dsimp only
          simp only [List.length_append, List.length_take, List.length_drop]
          omega
        have j3 : ctx2.written ≤ ctx2.expected := by
          rw [hctx2]
          dsimp only
          omega
        by_cases hfull : min c.length (ctx.out.limit - ctx.out.pos) = c.length
        · simp only [runChunks, hcw]
          rw [if_pos hfull]
          obtain ⟨r1, r2, r3, r4⟩ := ih ctx2 j1 j2 j3
          refine ⟨r1, r2, ?_, ?_⟩
          · have hee : ctx2.expected = ctx.expected := by rw [hctx2]
            rw [← hee]
            exact r3
          · rw [r4, hctx2]
        · simp only [runChunks, hcw]
          rw [if_neg hfull]
          refine ⟨j1, j2, ?_, by rw [hctx2]⟩
          rw [hctx2]
          dsimp only
          omega
      · have hcw : ctxWrite ctx c
            = ({ ctx with received := ctx.written + c.length }, c.length + 1) := by
          simp only [ctxWrite]
          rw [if_neg hov, if_pos hgd]
        simp only [runChunks, hcw]
        rw [if_neg (by omega)]
        exact ⟨hpw, hcl, hwe, rfl⟩

/-- The sink's device capacity is untouched by a callback invocation. -/
lemma ctxWrite_limit (ctx : DownloadCtx) (data : Bytes) :
    (ctxWrite ctx data).1.out.limit = ctx.out.limit := by
  simp only [ctxWrite]
  split
  · rfl
  · split
    · rfl
    · dsimp only
      simp only [osWrite]
      split
      · rfl
      · rfl

/-- The sink's device capacity is untouched by a whole transfer. -/
lemma runChunks_limit (chunks : List Bytes) (ctx : DownloadCtx) :
    (runChunks ctx chunks).1.out.limit = ctx.out.limit := by
  induction chunks generalizing ctx with
  | nil => rfl
  | cons c rest ih =>
    simp only [runChunks]
    split
    · rw [ih]
      exact ctxWrite_limit ctx c
    · exact ctxWrite_limit ctx c

/-- Whatever context the 401-retry phase of `downloadBlob` hands on, its
file length is the written counter `max`-ed with some junk length that is
itself bounded by the expected size, and the counter never exceeds the
expected size.  (The junk is a remnant of the first attempt that the
retry, restarted at position 0, did not overwrite.) -/
lemma blobAuthStage_ok_len (w : RegistryWorld) (ctx1 : DownloadCtx) (ok1 : Bool)
    (resp1 : HttpResponse) (ctx : DownloadCtx) (respOk : Bool)
    (h : blobAuthStage w ctx1 ok1 resp1 = .ok (ctx, respOk))
    (hpw : ctx1.out.pos = ctx1.written)
    (hcl : ctx1.out.content.length = ctx1.written)
    (hwe : ctx1.written ≤ ctx1.expected) :
    ∃ J, J ≤ ctx1.expected ∧ ctx.out.content.length = max J ctx.written ∧
      ctx.written ≤ ctx1.expected := by
  simp only [blobAuthStage] at h
  split at h
  · split at h
    · exact absurd h (by simp)
    · rename_i hv hhv
      cases hba : bearerAuth hv with
      | error e =>
        rw [hba] at h
        exact absurd h (by simp [Except.bind])
      | ok ba =>
        rw [hba] at h
        simp only [Except.bind] at h
        cases hah : getBearerAuthHeader w ba with
        | error e =>
          rw [hah] at h
          exact absurd h (by simp [Except.bind, Except.map])
        | ok ah =>
          rw [hah] at h
          simp only [Except.bind, Except.map, Except.ok.injEq, Prod.mk.injEq] at h
          obtain ⟨hctx, _⟩ := h
          obtain ⟨q1, q2, q3, q4⟩ :=
            runChunks_partial_inv (w.blobDownload [ah]).1 (ctxReset ctx1)
              ctx1.out.content.length (by simp [ctxReset]) (by simp [ctxReset])
              (by simp [ctxReset])
          refine ⟨ctx1.out.content.length, by omega, ?_, ?_⟩
          · rw [← hctx]
            exact q2
          · rw [← hctx]
            simpa [ctxReset] using q3
  · simp only [Except.ok.injEq, Prod.mk.injEq] at h
    obtain ⟨hctx, _⟩ := h
    exact ⟨0, by omega, by rw [← hctx]; simpa using hcl, by rw [← hctx]; exact hwe⟩

/-- C2 counterexample: a transport failure (an HTTP 500 response, no 401
retry involved) after two bytes have already been streamed leaves the
partially written two-byte file on disk alongside the raised error —
`downloadBlob` removes the file only on the size/digest verification
failures, refuting the claimed "or leaves no file at path at all". -/
theorem downloadBlob_c2_counterexample :
    downloadBlob (fun _ => List.replicate 64 '0')
      ⟨fun _ _ => ⟨[], 200, [], .null⟩, ⟨[], 200, [], .null⟩,
        fun _ _ => ⟨[], 200, [], .null⟩,
        fun _ => ([[104, 105]], ⟨[], 500, [], .null⟩)⟩
      ⟨⟨('s' :: 'h' :: 'a' :: '2' :: '5' :: '6' :: ':' :: List.replicate 64 '0'),
          List.replicate 64 '0', List.replicate 7 '0'⟩,
        ['a'], [], ['a'], ['h']⟩
      5 10
      = (some [104, 105], some "Failed to download App blob") := by
  rfl

lemma sum_map_length_eq {α : Type} (l : List (List α)) :
    (l.map List.length).sum = l.flatten.length := by
  induction l with
  | nil => rfl
  | cons a as ih =>
    simp only [List.map_cons, List.sum_cons, List.flatten_cons, List.length_append, ih]

/-- C2 (amended): file-and-error semantics of `RegistryClient::downloadBlob`
(`docker.cc` lines 262-315).  (a) A clean single-attempt transfer of `N`
bytes fitting the device, whose hash matches the pinned digest, leaves
exactly those bytes and raises no error.  (b) The same holds after the
single 401-driven auth retry, provided the first attempt left the sink
healthy.  (c) The file is removed exactly on the two post-transfer
verification failures, size mismatch and digest mismatch.  (d) Any other
raised error — the transport failure `Failed to download App blob` as well
as every auth-phase failure — leaves the (possibly partial) file on disk.
(e) A successful call always leaves a file of exactly `expected_size`
bytes. -/
theorem downloadBlob_c2_file_semantics (Hb : Bytes → Str) (w : RegistryWorld)
    (uri : Uri) (N limit : Nat) :
    ((w.blobDownload []).2.status ≠ 401 →
      isOk (w.blobDownload []).2 = true →
      (w.blobDownload []).1.flatten.length = N →
      N ≤ limit →
      Hb (w.blobDownload []).1.flatten = uri.digest.hash →
      downloadBlob Hb w uri N limit = (some (w.blobDownload []).1.flatten, none)) ∧
    (∀ hv ba ah,
      (w.blobDownload []).2.status = 401 →
      getHeader (w.blobDownload []).2 wwwAuthenticate = some hv →
      bearerAuth hv = .ok ba →
      getBearerAuthHeader w ba = .ok ah →
      (runChunks ⟨⟨[], 0, limit, true⟩, [], N, 0, 0⟩ (w.blobDownload []).1).1.out.good
        = true →
      isOk (w.blobDownload [ah]).2 = true →
      (w.blobDownload [ah]).1.flatten.length = N →
      N ≤ limit →
      Hb (w.blobDownload [ah]).1.flatten = uri.digest.hash →
      downloadBlob Hb w uri N limit = (some (w.blobDownload [ah]).1.flatten, none)) ∧
    (∀ e, downloadBlob Hb w uri N limit = (none, some e) →
      e = "blob size mismatch" ∨ e = "blob hash mismatch") ∧
    (∀ f e, downloadBlob Hb w uri N limit = (f, some e) →
      e ≠ "blob size mismatch" → e ≠ "blob hash mismatch" → f.isSome = true) ∧
    (∀ f, downloadBlob Hb w uri N limit = (some f, none) → f.length = N) := by
  refine ⟨?_, ?_, ?_, ?_, ?_⟩
  · intro hs hok hlen hNlim hdig
    have hsum0 : ((w.blobDownload []).1.map List.length).sum = N := by
      rw [sum_map_length_eq]
      exact hlen
    obtain ⟨s1, s2, s3, s4, s5, s6, s7, s8⟩ :=
      runChunks_success (w.blobDownload []).1 ⟨⟨[], 0, limit, true⟩, [], N, 0, 0⟩
        rfl rfl (by simp) (by dsimp only; rw [hsum0]; omega)
        (by dsimp only; rw [hsum0]; omega)
    have hok1 : ((runChunks ⟨⟨[], 0, limit, true⟩, [], N, 0, 0⟩
        (w.blobDownload []).1).2 && isOk (w.blobDownload []).2) = true := by
      rw [s1, hok]
      rfl
    have hstage : blobAuthStage w
        (runChunks ⟨⟨[], 0, limit, true⟩, [], N, 0, 0⟩ (w.blobDownload []).1).1
        ((runChunks ⟨⟨[], 0, limit, true⟩, [], N, 0, 0⟩ (w.blobDownload []).1).2
          && isOk (w.blobDownload []).2)
        (w.blobDownload []).2
        = .ok ((runChunks ⟨⟨[], 0, limit, true⟩, [], N, 0, 0⟩
            (w.blobDownload []).1).1, true) := by
      simp only [blobAuthStage]
      rw [if_neg hs, hok1]
    simp only [downloadBlob, hstage]
    have hwr : ¬ ((runChunks ⟨⟨[], 0, limit, true⟩, [], N, 0, 0⟩
        (w.blobDownload []).1).1.written ≠ N) := by
      rw [s7]
      dsimp only
      omega
    have hh : ¬ (Hb (runChunks ⟨⟨[], 0, limit, true⟩, [], N, 0, 0⟩
        (w.blobDownload []).1).1.hashed ≠ uri.digest.hash) := by
      rw [s6]
      dsimp only
      simp [hdig]
    rw [if_neg (by simp), if_neg hwr, if_neg hh, s2]
    simp
  · intro hv ba ah h401 hww hba hah hgood1 hok2 hlen2 hNlim hdig2
    have hsum2 : ((w.blobDownload [ah]).1.map List.length).sum = N := by
      rw [sum_map_length_eq]
      exact hlen2
    obtain ⟨p1, p2, p3, p4⟩ :=
      runChunks_partial_inv (w.blobDownload []).1 ⟨⟨[], 0, limit, true⟩, [], N, 0, 0⟩
        0 rfl (by simp) (by simp)
    have hexp1 : (runChunks ⟨⟨[], 0, limit, true⟩, [], N, 0, 0⟩
        (w.blobDownload []).1).1.expected = N := by
      simpa using p4
    have hw1 : (runChunks ⟨⟨[], 0, limit, true⟩, [], N, 0, 0⟩
        (w.blobDownload []).1).1.written ≤ N := by
      simpa using p3
    have hjunk : (runChunks ⟨⟨[], 0, limit, true⟩, [], N, 0, 0⟩
        (w.blobDownload []).1).1.out.content.length ≤ N := by
      rw [p2]
      omega
    have hlim1 : (runChunks ⟨⟨[], 0, limit, true⟩, [], N, 0, 0⟩
        (w.blobDownload []).1).1.out.limit = limit := by
      simpa using runChunks_limit (w.blobDownload []).1 ⟨⟨[], 0, limit, true⟩, [], N, 0, 0⟩
    obtain ⟨t1, t2, t3, t4, t5, t6, t7, t8⟩ :=
      runChunks_success (w.blobDownload [ah]).1
        (ctxReset (runChunks ⟨⟨[], 0, limit, true⟩, [], N, 0, 0⟩ (w.blobDownload []).1).1)
        (by simpa [ctxReset] using hgood1)
        (by simp [ctxReset])
        (by simp [ctxReset])
        (by simp only [ctxReset]; simp only [hsum2, hexp1]; omega)
        (by simp only [ctxReset]; simp only [hsum2, hlim1]; omega)
    have hstage : blobAuthStage w
        (runChunks ⟨⟨[], 0, limit, true⟩, [], N, 0, 0⟩ (w.blobDownload []).1).1
        ((runChunks ⟨⟨[], 0, limit, true⟩, [], N, 0, 0⟩ (w.blobDownload []).1).2
          && isOk (w.blobDownload []).2)
        (w.blobDownload []).2
        = .ok ((runChunks
            (ctxReset (runChunks ⟨⟨[], 0, limit, true⟩, [], N, 0, 0⟩
              (w.blobDownload []).1).1)
            (w.blobDownload [ah]).1).1, true) := by
      simp only [blobAuthStage]
      rw [if_pos h401]
      simp only [hww, hba, hah, Except.bind, Except.map]
      rw [t1, hok2]
      rfl
    simp only [downloadBlob, hstage]
    have hwr : ¬ ((runChunks
        (ctxReset (runChunks ⟨⟨[], 0, limit, true⟩, [], N, 0, 0⟩
          (w.blobDownload []).1).1)
        (w.blobDownload [ah]).1).1.written ≠ N) := by
      rw [t7]
      simp only [ctxReset]
      omega
    have hh : ¬ (Hb (runChunks
        (ctxReset (runChunks ⟨⟨[], 0, limit, true⟩, [], N, 0, 0⟩
          (w.blobDownload []).1).1)
        (w.blobDownload [ah]).1).1.hashed ≠ uri.digest.hash) := by
      rw [t6]
      simp only [ctxReset]
      simp [hdig2]
    rw [if_neg (by simp), if_neg hwr, if_neg hh, t2]
    simp only [ctxReset]
    rw [List.take_zero, List.drop_eq_nil_of_le (by rw [hlen2]; omega)]
    simp
  · intro e h
    simp only [downloadBlob] at h
    split at h
    · simp at h
    · split at h
      · simp at h
      · split at h
        · left
          simp only [Prod.mk.injEq, Option.some.injEq] at h
          exact h.2.symm
        · split at h
          · right
            simp only [Prod.mk.injEq, Option.some.injEq] at h
            exact h.2.symm
          · simp at h
  · intro f e h he1 he2
    simp only [downloadBlob] at h
    split at h
    · simp only [Prod.mk.injEq] at h
      rw [← h.1]
      rfl
    · split at h
      · simp only [Prod.mk.injEq] at h
        rw [← h.1]
        rfl
      · split at h
        · simp only [Prod.mk.injEq, Option.some.injEq] at h
          exact absurd h.2.symm he1
        · split at h
          · simp only [Prod.mk.injEq, Option.some.injEq] at h
            exact absurd h.2.symm he2
          · simp at h
  · intro f h
    simp only [downloadBlob] at h
    split at h
    · simp at h
    · rename_i ctx respOk heq
      split at h
      · simp at h
      · split at h
        · simp at h
        · split at h
          · simp at h
          · rename_i hnr hnw hnh
            simp only [Prod.mk.injEq, Option.some.injEq] at h
            obtain ⟨hf, _⟩ := h
            obtain ⟨p1, p2, p3, p4⟩ :=
              runChunks_partial_inv (w.blobDownload []).1
                ⟨⟨[], 0, limit, true⟩, [], N, 0, 0⟩ 0 rfl (by simp) (by simp)
            have hcl1 : (runChunks ⟨⟨[], 0, limit, true⟩, [], N, 0, 0⟩
                (w.blobDownload []).1).1.out.content.length
                = (runChunks ⟨⟨[], 0, limit, true⟩, [], N, 0, 0⟩
                    (w.blobDownload []).1).1.written := by
              rw [p2]
              omega
            have hwe1 : (runChunks ⟨⟨[], 0, limit, true⟩, [], N, 0, 0⟩
                (w.blobDownload []).1).1.written
                ≤ (runChunks ⟨⟨[], 0, limit, true⟩, [], N, 0, 0⟩
                    (w.blobDownload []).1).1.expected := by
              rw [p4]
              exact p3
            obtain ⟨J, hJ, hmax, hwle⟩ :=
              blobAuthStage_ok_len w
                (runChunks ⟨⟨[], 0, limit, true⟩, [], N, 0, 0⟩ (w.blobDownload []).1).1
                ((runChunks ⟨⟨[], 0, limit, true⟩, [], N, 0, 0⟩
                  (w.blobDownload []).1).2 && isOk (w.blobDownload []).2)
                (w.blobDownload []).2 ctx respOk heq p1 hcl1 hwe1
            have hexp1 : (runChunks ⟨⟨[], 0, limit, true⟩, [], N, 0, 0⟩
                (w.blobDownload []).1).1.expected = N := by
              simpa using p4
            rw [← hf, hmax]
            omega

/-- Concrete instantiation of the C2 semantics theorem: a clean two-byte
transfer whose hash matches the pinned digest leaves exactly the
transferred bytes and raises nothing. -/
theorem downloadBlob_c2_file_semantics_witness :
    downloadBlob (fun _ => List.replicate 64 '0')
      ⟨fun _ _ => ⟨[], 200, [], .null⟩, ⟨[], 200, [], .null⟩,
        fun _ _ => ⟨[], 200, [], .null⟩,
        fun _ => ([[104, 105]], ⟨[], 200, [], .null⟩)⟩
      ⟨⟨('s' :: 'h' :: 'a' :: '2' :: '5' :: '6' :: ':' :: List.replicate 64 '0'),
          List.replicate 64 '0', List.replicate 7 '0'⟩,
        ['a'], [], ['a'], ['h']⟩
      2 10
      = (some [104, 105], none) := by
  have h := (downloadBlob_c2_file_semantics (fun _ => List.replicate 64 '0')
      ⟨fun _ _ => ⟨[], 200, [], .null⟩, ⟨[], 200, [], .null⟩,
        fun _ _ => ⟨[], 200, [], .null⟩,
        fun _ => ([[104, 105]], ⟨[], 200, [], .null⟩)⟩
      ⟨⟨('s' :: 'h' :: 'a' :: '2' :: '5' :: '6' :: ':' :: List.replicate 64 '0'),
          List.replicate 64 '0', List.replicate 7 '0'⟩,
        ['a'], [], ['a'], ['h']⟩
      2 10).1 (by decide) (by rfl) (by rfl) (by decide) (by rfl)
  exact h

/-! ## Order facts about the concrete comparator `strCmpC` -/

lemma strCmpC_eq_zero_iff : ∀ a b : Str, strCmpC a b = 0 ↔ a = b
  | [], [] => by simp [strCmpC]
  | [], _ :: _ => by simp [strCmpC]
  | _ :: _, [] => by simp [strCmpC]
  | a :: as, b :: bs => by
    simp only [strCmpC, List.cons.injEq]
    rcases lt_trichotomy a b with h | h | h
    · rw [if_pos h]
      constructor
      · intro hc
        exact absurd hc (by decide)
      · rintro ⟨rfl, -⟩
        exact absurd h (lt_irrefl a)
    · subst h
      rw [if_neg (lt_irrefl a), if_neg (lt_irrefl a)]
      rw [strCmpC_eq_zero_iff as bs]
      simp
    · rw [if_neg (asymm h), if_pos h]
      constructor
      · intro hc
        exact absurd hc (by decide)
      · rintro ⟨rfl, -⟩
        exact absurd h (lt_irrefl a)

lemma strCmpC_pos_iff_neg : ∀ a b : Str, 0 < strCmpC a b ↔ strCmpC b a < 0
  | [], [] => by simp [strCmpC]
  | [], _ :: _ => by simp [strCmpC]
  | _ :: _, [] => by simp [strCmpC]
  | a :: as, b :: bs => by
    simp only [strCmpC]
    rcases lt_trichotomy a b with h | h | h
    · rw [if_pos h, if_neg (asymm h), if_pos h]
      decide
    · subst h
      rw [if_neg (lt_irrefl a), if_neg (lt_irrefl a), if_neg (lt_irrefl a),
        if_neg (lt_irrefl a)]
      exact strCmpC_pos_iff_neg as bs
    · rw [if_neg (asymm h), if_pos h, if_pos h]
      decide

lemma strCmpC_trans_pos : ∀ a b c : Str,
    0 < strCmpC a b → 0 < strCmpC b c → 0 < strCmpC a c
  | [], b, c => by
    intro h1 _
    cases b with
    | nil => simp only [strCmpC] at h1; omega
    | cons y ys => simp only [strCmpC] at h1; omega
  | _ :: _, [], c => by
    intro _ h2
    cases c with
    | nil => simp only [strCmpC] at h2; omega
    | cons z zs => simp only [strCmpC] at h2; omega
  | _ :: _, _ :: _, [] => by
    intro _ _
    simp only [strCmpC]
    omega
  | a :: as, b :: bs, c :: cs => by
    intro h1 h2
    simp only [strCmpC] at h1 h2 ⊢
    rcases lt_trichotomy a b with hab | hab | hab
    · rw [if_pos hab] at h1
      exact absurd h1 (by decide)
    · subst hab
      rw [if_neg (lt_irrefl a), if_neg (lt_irrefl a)] at h1
      rcases lt_trichotomy a c with hac | hac | hac
      · rw [if_pos hac] at h2
        exact absurd h2 (by decide)
      · subst hac
        rw [if_neg (lt_irrefl a), if_neg (lt_irrefl a)] at h2 ⊢
        exact strCmpC_trans_pos as bs cs h1 h2
      · rw [if_neg (asymm hac), if_pos hac]
        decide
    · rcases lt_trichotomy b c with hbc | hbc | hbc
      · rw [if_pos hbc] at h2
        exact absurd h2 (by decide)
      · subst hbc
        rw [if_neg (asymm hab), if_pos hab]
        decide
      · have hca : c < a := lt_trans hbc hab
        rw [if_neg (asymm hca), if_pos hca]
        decide

/-! ## The version-sorted candidate set: `insertT` and the candidate fold -/

lemma mem_insertT {vc : Str → Str → Int} {t s : Target} (acc : List Target)
    (h : s ∈ insertT vc t acc) : s = t ∨ s ∈ acc := by
  induction acc with
  | nil =>
    simp [insertT] at h
    exact Or.inl h
  | cons a rest ih =>
    simp only [insertT] at h
    split at h
    · rcases List.mem_cons.mp h with h | h
      · exact Or.inl h
      · exact Or.inr h
    · split at h
      · rcases List.mem_cons.mp h with h | h
        · exact Or.inr (by simp [h])
        · rcases ih h with h' | h'
          · exact Or.inl h'
          · exact Or.inr (List.mem_cons_of_mem _ h')
      · exact Or.inr h

lemma mem_insertT_of_mem {vc : Str → Str → Int} {t s : Target} (acc : List Target)
    (h : s ∈ acc) : s ∈ insertT vc t acc := by
  induction acc with
  | nil => simp at h
  | cons a rest ih =>
    simp only [insertT]
    split
    · exact List.mem_cons_of_mem _ h
    · split
      · rcases List.mem_cons.mp h with h | h
        · simp [h]
        · exact List.mem_cons_of_mem _ (ih h)
      · exact h

lemma insertT_pairwise {vc : Str → Str → Int}
    (hvc2 : ∀ a b c, 0 < vc a b → 0 < vc b c → 0 < vc a c)
    (t : Target) (acc : List Target)
    (hp : acc.Pairwise (fun x y => 0 < vc x.customVersion y.customVersion)) :
    (insertT vc t acc).Pairwise
      (fun x y => 0 < vc x.customVersion y.customVersion) := by
  induction acc with
  | nil => simp [insertT]
  | cons a rest ih =>
    rcases List.pairwise_cons.mp hp with ⟨ha, hrest⟩
    simp only [insertT]
    split
    · rename_i h1
      refine List.pairwise_cons.mpr ⟨?_, hp⟩
      intro x hx
      rcases List.mem_cons.mp hx with hxa | hx
      · rw [hxa]
        exact h1
      · exact hvc2 _ _ _ h1 (ha x hx)
    · split
      · rename_i h1 h2
        refine List.pairwise_cons.mpr ⟨?_, ih hrest⟩
        intro x hx
        rcases mem_insertT _ hx with hxt | hx
        · rw [hxt]
          exact h2
        · exact ha x hx
      · exact hp

lemma insertT_skip {vc : Str → Str → Int}
    (hvc0 : ∀ a b, vc a b = 0 ↔ a = b)
    (hvc1 : ∀ a b, 0 < vc a b ↔ vc b a < 0)
    (t : Target) (acc : List Target)
    (hp : acc.Pairwise (fun x y => 0 < vc x.customVersion y.customVersion))
    (s : Target) (hs : s ∈ acc) (hv : s.customVersion = t.customVersion) :
    insertT vc t acc = acc := by
  induction acc with
  | nil => simp at hs
  | cons a rest ih =>
    rcases List.pairwise_cons.mp hp with ⟨ha, hrest⟩
    rcases List.mem_cons.mp hs with hsa | hs
    · have hcv : a.customVersion = t.customVersion := by
        rw [← hsa]
        exact hv
      have h0 : vc t.customVersion a.customVersion = 0 := (hvc0 _ _).mpr hcv.symm
      have h0' : vc a.customVersion t.customVersion = 0 := (hvc0 _ _).mpr hcv
      simp only [insertT]
      rw [if_neg (by omega), if_neg (by omega)]
    · have hat : 0 < vc a.customVersion t.customVersion := by
        have := ha s hs
        rwa [hv] at this
      have hta : ¬ 0 < vc t.customVersion a.customVersion := by
        have hlt := (hvc1 _ _).mp hat
        omega
      simp only [insertT]
      rw [if_neg hta, if_pos hat, ih hrest hs]

lemma insertT_self_mem {vc : Str → Str → Int}
    (hvc0 : ∀ a b, vc a b = 0 ↔ a = b)
    (hvc1 : ∀ a b, 0 < vc a b ↔ vc b a < 0)
    (t : Target) (acc : List Target)
    (hnone : ∀ s ∈ acc, s.customVersion ≠ t.customVersion) :
    t ∈ insertT vc t acc := by
  induction acc with
  | nil => simp [insertT]
  | cons a rest ih =>
    simp only [insertT]
    split
    · exact List.mem_cons_self _ _
    · split
      · exact List.mem_cons_of_mem _
          (ih (fun s hs => hnone s (List.mem_cons_of_mem _ hs)))
      · rename_i h1 h2
        exfalso
        have hge : ¬ vc t.customVersion a.customVersion < 0 := by
          intro hlt
          exact h2 ((hvc1 _ _).mpr hlt)
        have h0 : vc t.customVersion a.customVersion = 0 := by omega
        exact hnone a (List.mem_cons_self _ _) ((hvc0 _ _).mp h0).symm

lemma selFold_mem_mono {vc : Str → Str → Int} {hw : Str} {s : Target}
    (l : List Target) :
    ∀ acc : List Target, s ∈ acc →
      s ∈ l.foldl (fun acc t => if eligible hw t then insertT vc t acc else acc) acc := by
  induction l with
  | nil =>
    intro acc h
    simpa using h
  | cons t l ih =>
    intro acc h
    simp only [List.foldl_cons]
    apply ih
    split
    · exact mem_insertT_of_mem _ h
    · exact h

lemma selFold_provenance {vc : Str → Str → Int} {hw : Str} {s : Target}
    (l : List Target) :
    ∀ acc : List Target,
      s ∈ l.foldl (fun acc t => if eligible hw t then insertT vc t acc else acc) acc →
      s ∈ acc ∨ (s ∈ l ∧ eligible hw s = true) := by
  induction l with
  | nil =>
    intro acc h
    exact Or.inl (by simpa using h)
  | cons t l ih =>
    intro acc h
    simp only [List.foldl_cons] at h
    rcases ih _ h with h' | h'
    · by_cases he : eligible hw t = true
      · rw [if_pos he] at h'
        rcases mem_insertT _ h' with heq | h''
        · refine Or.inr ⟨?_, ?_⟩
          · rw [heq]
            exact List.mem_cons_self _ _
          · rw [heq]
            exact he
        · exact Or.inl h''
      · rw [if_neg he] at h'
        exact Or.inl h'
    · exact Or.inr ⟨List.mem_cons_of_mem _ h'.1, h'.2⟩

lemma selFold_pairwise {vc : Str → Str → Int} {hw : Str}
    (hvc2 : ∀ a b c, 0 < vc a b → 0 < vc b c → 0 < vc a c)
    (l : List Target) :
    ∀ acc : List Target,
      acc.Pairwise (fun x y => 0 < vc x.customVersion y.customVersion) →
      (l.foldl (fun acc t => if eligible hw t then insertT vc t acc else acc)
        acc).Pairwise (fun x y => 0 < vc x.customVersion y.customVersion) := by
  induction l with
  | nil =>
    intro acc hp
    simpa using hp
  | cons t l ih =>
    intro acc hp
    simp only [List.foldl_cons]
    apply ih
    split
    · exact insertT_pairwise hvc2 _ _ hp
    · exact hp

lemma selFold_excl {vc : Str → Str → Int} {hw : Str} {x : Target}
    (hvc0 : ∀ a b, vc a b = 0 ↔ a = b)
    (hvc1 : ∀ a b, 0 < vc a b ↔ vc b a < 0)
    (hvc2 : ∀ a b c, 0 < vc a b → 0 < vc b c → 0 < vc a c)
    (l : List Target) :
    ∀ acc : List Target,
      acc.Pairwise (fun x y => 0 < vc x.customVersion y.customVersion) →
      x ∉ acc →
      (∃ s ∈ acc, s.customVersion = x.customVersion) →
      x ∉ l.foldl (fun acc t => if eligible hw t then insertT vc t acc else acc) acc := by
  induction l with
  | nil =>
    intro acc _ hx _
    simpa using hx
  | cons t l ih =>
    intro acc hp hx hex
    obtain ⟨s, hs, hscv⟩ := hex
    simp only [List.foldl_cons]
    by_cases he : eligible hw t = true
    · rw [if_pos he]
      by_cases htv : t.customVersion = x.customVersion
      · rw [insertT_skip hvc0 hvc1 t acc hp s hs (by rw [hscv, htv])]
        exact ih acc hp hx ⟨s, hs, hscv⟩
      · apply ih (insertT vc t acc) (insertT_pairwise hvc2 _ _ hp)
        · intro hmem
          rcases mem_insertT _ hmem with heq | hmem'
          · exact htv (by rw [heq])
          · exact hx hmem'
        · exact ⟨s, mem_insertT_of_mem _ hs, hscv⟩
    · rw [if_neg he]
      exact ih acc hp hx ⟨s, hs, hscv⟩

/-- C9: the candidate set of the offline target selector (`client.cc`
lines 221-240) is a `std::set` ordered by `strverscmp` on
`custom_version`, so of two distinct eligible targets whose versions
compare equal — under the comparator contract, whose version strings are
equal — only the first one encountered in the signed target list is
retained; the later one is silently excluded from the candidate set. -/
theorem getTarget_c9_version_dedup (vc : Str → Str → Int) (hw : Str)
    (t1 t2 : Target) (pre mid post : List Target)
    (hvc0 : ∀ a b, vc a b = 0 ↔ a = b)
    (hvc1 : ∀ a b, 0 < vc a b ↔ vc b a < 0)
    (hvc2 : ∀ a b c, 0 < vc a b → 0 < vc b c → 0 < vc a c)
    (he1 : eligible hw t1 = true) (he2 : eligible hw t2 = true)
    (hv : t1.customVersion = t2.customVersion)
    (hne : t1 ≠ t2)
    (hfirst : ∀ s ∈ pre, eligible hw s = true → s.customVersion ≠ t1.customVersion) :
    t1 ∈ availableTargets vc hw (pre ++ t1 :: mid ++ t2 :: post) ∧
    t2 ∉ availableTargets vc hw (pre ++ t1 :: mid ++ t2 :: post) := by
  simp only [availableTargets, List.foldl_append, List.foldl_cons]
  rw [if_pos he1]
  have hprov : ∀ s ∈ (pre.foldl
      (fun acc t => if eligible hw t then insertT vc t acc else acc) []),
      s ∈ pre ∧ eligible hw s = true := by
    intro s hs
    rcases selFold_provenance pre [] hs with h | h
    · simp at h
    · exact h
  have hp0 : (pre.foldl
      (fun acc t => if eligible hw t then insertT vc t acc else acc) []).Pairwise
      (fun x y => 0 < vc x.customVersion y.customVersion) :=
    selFold_pairwise hvc2 pre [] (by simp)
  have ht1not : ∀ s ∈ (pre.foldl
      (fun acc t => if eligible hw t then insertT vc t acc else acc) []),
      s.customVersion ≠ t1.customVersion := by
    intro s hs
    exact hfirst s (hprov s hs).1 (hprov s hs).2
  have hmem1 : t1 ∈ insertT vc t1 (pre.foldl
      (fun acc t => if eligible hw t then insertT vc t acc else acc) []) :=
    insertT_self_mem hvc0 hvc1 _ _ ht1not
  have hpX : (insertT vc t1 (pre.foldl
      (fun acc t => if eligible hw t then insertT vc t acc else acc) [])).Pairwise
      (fun x y => 0 < vc x.customVersion y.customVersion) :=
    insertT_pairwise hvc2 _ _ hp0
  have hpM := @selFold_pairwise vc hw hvc2 mid _ hpX
  have hmemM := @selFold_mem_mono vc hw t1 mid _ hmem1
  have hskip := insertT_skip hvc0 hvc1 t2 _ hpM t1 hmemM hv
  have hnotinX : t2 ∉ insertT vc t1 (pre.foldl
      (fun acc t => if eligible hw t then insertT vc t acc else acc) []) := by
    intro hmem
    rcases mem_insertT _ hmem with heq | hmem'
    · exact hne heq.symm
    · exact hfirst t2 (hprov t2 hmem').1 (hprov t2 hmem').2 hv.symm
  have hnotinM := @selFold_excl vc hw t2 hvc0 hvc1 hvc2 mid _ hpX hnotinX ⟨t1, hmem1, hv⟩
  rw [if_pos he2, hskip]
  constructor
  · exact selFold_mem_mono post _ hmemM
  · exact selFold_excl hvc0 hvc1 hvc2 post _ hpM hnotinM ⟨t1, hmemM, hv⟩

/-- Concrete instantiation of the C9 dedup theorem: two distinct signed
targets for the device's hardware id with the equal version `1` — the
first is a retained candidate, the second is excluded. -/
theorem getTarget_c9_version_dedup_witness :
    (⟨['f', '1'], ['c', '1'], [['h']], ['1'], []⟩ : Target) ∈
      availableTargets strCmpC ['h']
        [⟨['f', '1'], ['c', '1'], [['h']], ['1'], []⟩,
         ⟨['f', '2'], ['c', '2'], [['h']], ['1'], []⟩] ∧
    (⟨['f', '2'], ['c', '2'], [['h']], ['1'], []⟩ : Target) ∉
      availableTargets strCmpC ['h']
        [⟨['f', '1'], ['c', '1'], [['h']], ['1'], []⟩,
         ⟨['f', '2'], ['c', '2'], [['h']], ['1'], []⟩] := by
  have h := getTarget_c9_version_dedup strCmpC ['h']
      ⟨['f', '1'], ['c', '1'], [['h']], ['1'], []⟩
      ⟨['f', '2'], ['c', '2'], [['h']], ['1'], []⟩
      [] [] []
      strCmpC_eq_zero_iff strCmpC_pos_iff_neg strCmpC_trans_pos
      (by decide) (by decide) rfl (by decide) (by simp)
  exact h

/-- C10: on the booted-commit fast path of `offline::client::run`
(`client.cc` lines 376-394) — local TUF metadata valid, a target selected,
its sha256 equal to the current one, download succeeding — the result code
of the `client->install(target)` call is discarded: the outcome of the run
is the same for every install result code, and is an error exactly when
the subsequent `isTargetActive(target)` check fails. -/
theorem run_c10_install_result_discarded (vc : Str → Str → Int)
    (c : ClientOps) (commits found_apps : List Str) (t : Target)
    (hmeta : c.checkImageMetaOffline = true)
    (hsel : getTargetSel vc c.hw c.allTargets commits found_apps = some t)
    (hcur : c.current.sha256 = t.sha256)
    (hdl : c.downloadOk = true) :
    ∀ rc : Nat,
      runOffline vc
        ⟨c.checkImageMetaOffline, c.allTargets, c.hw, c.current, c.downloadOk, rc,
          c.finalizeOk, c.isTargetActive⟩ commits found_apps
      = if c.isTargetActive t then .ok ()
        else .error "The installed Target is not running" := by
  intro rc
  simp only [runOffline]
  dsimp only
  rw [if_neg (by simp [hmeta])]
  simp only [hsel]
  rw [if_neg (by simp [hcur]), if_neg (by simp [hdl])]
  cases hact : c.isTargetActive t <;> simp [Except.bind, hact]

/-- Concrete instantiation of the C10 theorem: with an arbitrary nonzero
install result code and an inactive target, the run fails only with the
`isTargetActive` error. -/
theorem run_c10_install_result_discarded_witness :
    runOffline strCmpC
      ⟨true, [⟨['f'], ['c'], [['h']], ['1'], []⟩], ['h'],
        ⟨['f'], ['c'], [['h']], ['1'], []⟩, true, 42, true, fun _ => false⟩
      [['c']] []
      = .error "The installed Target is not running" := by
  have h := run_c10_install_result_discarded strCmpC
      ⟨true, [⟨['f'], ['c'], [['h']], ['1'], []⟩], ['h'],
        ⟨['f'], ['c'], [['h']], ['1'], []⟩, true, 0, true, fun _ => false⟩
      [['c']] [] ⟨['f'], ['c'], [['h']], ['1'], []⟩
      rfl (by rfl) rfl rfl 42
  exact h

/-! ## The app-matching loop of the target selector -/

lemma pendAt_zero (p : List Str) (l : List TargetApp) : pendAt p l 0 = p := by
  simp [pendAt]

lemma pendAt_succ_cons_mem (p : List Str) (a : TargetApp) (rem : List TargetApp)
    (K : Nat) :
    pendAt (p.filter (fun u => u ≠ a.uri)) rem K = pendAt p (a :: rem) (K + 1) := by
  simp only [pendAt]
  rw [List.take_succ_cons, List.filter_filter]
  apply List.filter_congr
  intro u hu
  rw [Bool.eq_iff_iff]
  simp only [Bool.and_eq_true, decide_eq_true_eq, List.any_cons, Bool.or_eq_true]
  constructor
  · rintro ⟨hna, hne⟩ hor
    rcases hor with h | h
    · exact hne h.symm
    · exact hna h
  · intro h
    exact ⟨fun hany => h (Or.inr hany), fun heq => h (Or.inl heq.symm)⟩

lemma pendAt_succ_cons_notmem (fa p : List Str) (a : TargetApp) (rem : List TargetApp)
    (K : Nat) (hsub : ∀ u ∈ p, u ∈ fa) (hc : ¬ fa.contains a.uri = true) :
    pendAt p rem K = pendAt p (a :: rem) (K + 1) := by
  simp only [pendAt]
  rw [List.take_succ_cons]
  apply List.filter_congr
  intro u hu
  have hne : ¬ a.uri = u := by
    intro h
    exact hc (List.elem_iff.mpr (h ▸ hsub u hu))
  simp [List.any_cons, hne]

/-- Full behaviour of the app-matching loop (`client.cc` lines 261-273),
started on a remainder `rem` of the target's app list with the
already-kept prefix `S` in the shortlist: there is a cutoff `K` — the
number of apps actually processed before the loop ends or breaks — such
that the final `found_but_not_target_apps` list is the pending set after
the first `K` apps, and the final shortlist keeps, of the first `K` apps,
exactly those on the medium, and every app after the cutoff
unconditionally.  `K` is minimal: before it the pending set is never
empty, and if the loop broke early the pending set at `K` is empty. -/
lemma appsLoopGo_spec (fa : List Str) :
    ∀ (rem : List TargetApp) (pending : List Str) (S : List TargetApp),
      (∀ u ∈ pending, u ∈ fa) →
      (∀ x ∈ S, ∀ b ∈ rem, x.name ≠ b.name) →
      (rem.map TargetApp.name).Nodup →
      ∃ K, K ≤ rem.length ∧
        appsLoopGo fa rem pending (S ++ rem)
          = (pendAt pending rem K,
             S ++ appsIntersection (rem.take K) fa ++ rem.drop K) ∧
        (K < rem.length → pendAt pending rem K = []) ∧
        (∀ j, j < K → pendAt pending rem j ≠ []) := by
  intro rem
  induction rem with
  | nil =>
    intro pending S hsub hdisj hnd
    refine ⟨0, le_refl 0, ?_, fun h => absurd h (lt_irrefl 0),
      fun j hj => absurd hj (Nat.not_lt_zero j)⟩
    simp [appsLoopGo, pendAt, appsIntersection]
  | cons a rem ih =>
    intro pending S hsub hdisj hnd
    by_cases hp : pending = []
    · refine ⟨0, Nat.zero_le _, ?_, fun _ => ?_, fun j hj => absurd hj (Nat.not_lt_zero j)⟩
      · subst hp
        simp [appsLoopGo, pendAt, appsIntersection]
      · subst hp
        simp [pendAt]
    · have hndc : (∀ x ∈ rem, ¬ x.name = a.name) ∧ (rem.map TargetApp.name).Nodup := by
        simpa using hnd
      by_cases hc : fa.contains a.uri = true
      · have hstep : appsLoopGo fa (a :: rem) pending (S ++ a :: rem)
            = appsLoopGo fa rem (pending.filter (fun u => u ≠ a.uri))
                ((S ++ [a]) ++ rem) := by
          simp only [appsLoopGo]
          rw [if_neg hp, if_pos hc, List.append_cons]
        obtain ⟨K2, hK2, heq2, hbrk2, hmin2⟩ :=
          ih (pending.filter (fun u => u ≠ a.uri)) (S ++ [a])
            (fun u hu => hsub u (List.mem_filter.mp hu).1)
            (fun x hx b hb => by
              rcases List.mem_append.mp hx with hx | hx
              · exact hdisj x hx b (List.mem_cons_of_mem _ hb)
              · have hxa : x = a := by simpa using hx
                subst hxa
                intro hname
                exact hndc.1 b hb hname.symm)
            hndc.2
        refine ⟨K2 + 1, by simp only [List.length_cons]; omega, ?_, ?_, ?_⟩
        · rw [hstep, heq2, pendAt_succ_cons_mem]
          have hsl : (S ++ [a]) ++ appsIntersection (rem.take K2) fa ++ rem.drop K2
              = S ++ appsIntersection ((a :: rem).take (K2 + 1)) fa
                  ++ (a :: rem).drop (K2 + 1) := by
            rw [List.take_succ_cons, List.drop_succ_cons]
            rw [show appsIntersection (a :: rem.take K2) fa
                = a :: appsIntersection (rem.take K2) fa from by
              simp only [appsIntersection]
              rw [List.filter_cons_of_pos (by simpa using hc)]]
            simp [List.append_assoc]
          rw [hsl]
        · intro hlt
          rw [← pendAt_succ_cons_mem]
          exact hbrk2 (Nat.lt_of_succ_lt_succ hlt)
        · intro j hj
          cases j with
          | zero =>
            rw [pendAt_zero]
            exact hp
          | succ j =>
            rw [← pendAt_succ_cons_mem]
            exact hmin2 j (Nat.lt_of_succ_lt_succ hj)
      · have hfilter : (S ++ a :: rem).filter (fun p => p.name ≠ a.name)
            = S ++ rem := by
          rw [List.filter_append]
          congr 1
          · apply List.filter_eq_self.mpr
            intro x hx
            simpa using hdisj x hx a (List.mem_cons_self _ _)
          · rw [List.filter_cons_of_neg (by simp)]
            apply List.filter_eq_self.mpr
            intro b hb
            simp only [decide_eq_true_eq]
            intro hname
            exact hndc.1 b hb hname
        have hstep : appsLoopGo fa (a :: rem) pending (S ++ a :: rem)
            = appsLoopGo fa rem pending (S ++ rem) := by
          simp only [appsLoopGo]
          rw [if_neg hp, if_neg hc, hfilter]
        obtain ⟨K2, hK2, heq2, hbrk2, hmin2⟩ :=
          ih pending S hsub
            (fun x hx b hb => hdisj x hx b (List.mem_cons_of_mem _ hb))
            hndc.2
        refine ⟨K2 + 1, by simp only [List.length_cons]; omega, ?_, ?_, ?_⟩
        · rw [hstep, heq2, pendAt_succ_cons_notmem fa pending a rem K2 hsub hc]
          have hsl : S ++ appsIntersection (rem.take K2) fa ++ rem.drop K2
              = S ++ appsIntersection ((a :: rem).take (K2 + 1)) fa
                  ++ (a :: rem).drop (K2 + 1) := by
            rw [List.take_succ_cons, List.drop_succ_cons]
            rw [show appsIntersection (a :: rem.take K2) fa
                = appsIntersection (rem.take K2) fa from by
              simp only [appsIntersection]
              rw [List.filter_cons_of_neg (by simpa using hc)]]
          rw [hsl]
        · intro hlt
          rw [← pendAt_succ_cons_notmem fa pending a rem K2 hsub hc]
          exact hbrk2 (Nat.lt_of_succ_lt_succ hlt)
        · intro j hj
          cases j with
          | zero =>
            rw [pendAt_zero]
            exact hp
          | succ j =>
            rw [← pendAt_succ_cons_notmem fa pending a rem j hsub hc]
            exact hmin2 j (Nat.lt_of_succ_lt_succ hj)

lemma findTarget_none_iff (commits fa : List Str) :
    ∀ l : List Target,
      (findTarget commits fa l = none ↔
        ∀ t ∈ l, ¬ (commits.contains t.sha256 = true ∧
          (appsLoopGo fa t.apps fa t.apps).1 = [])) := by
  intro l
  induction l with
  | nil => simp [findTarget]
  | cons t l ih =>
    simp only [findTarget]
    by_cases hcs : commits.contains t.sha256 = true
    · rw [if_pos hcs]
      by_cases hlr : (appsLoopGo fa t.apps fa t.apps).1 = []
      · rw [if_pos hlr]
        constructor
        · intro h
          exact absurd h (by simp)
        · intro h
          exact absurd ⟨hcs, hlr⟩ (h t (List.mem_cons_self _ _))
      · rw [if_neg hlr, ih]
        constructor
        · intro h s hs
          rcases List.mem_cons.mp hs with heq | hs'
          · rw [heq]
            exact fun hacc => hlr hacc.2
          · exact h s hs'
        · intro h s hs
          exact h s (List.mem_cons_of_mem _ hs)
    · rw [if_neg hcs, ih]
      constructor
      · intro h s hs
        rcases List.mem_cons.mp hs with heq | hs'
        · rw [heq]
          exact fun hacc => hcs hacc.1
        · exact h s hs'
      · intro h s hs
        exact h s (List.mem_cons_of_mem _ hs)

lemma findTarget_some_split (commits fa : List Str) :
    ∀ (l : List Target) (r : Target),
      findTarget commits fa l = some r →
      ∃ pre t post, l = pre ++ t :: post ∧
        (∀ s ∈ pre, ¬ (commits.contains s.sha256 = true ∧
          (appsLoopGo fa s.apps fa s.apps).1 = [])) ∧
        commits.contains t.sha256 = true ∧
        (appsLoopGo fa t.apps fa t.apps).1 = [] ∧
        r = { t with apps := (appsLoopGo fa t.apps fa t.apps).2 } := by
  intro l
  induction l with
  | nil =>
    intro r h
    simp [findTarget] at h
  | cons t l ih =>
    intro r h
    simp only [findTarget] at h
    by_cases hcs : commits.contains t.sha256 = true
    · rw [if_pos hcs] at h
      by_cases hlr : (appsLoopGo fa t.apps fa t.apps).1 = []
      · rw [if_pos hlr] at h
        refine ⟨[], t, l, by simp, by simp, hcs, hlr, ?_⟩
        exact ((Option.some.injEq _ _).mp h).symm
      · rw [if_neg hlr] at h
        obtain ⟨pre, t', post, hsplit, hpre, hcs', hlr', hr⟩ := ih r h
        refine ⟨t :: pre, t', post, by rw [hsplit]; rfl, ?_, hcs', hlr', hr⟩
        intro s hs
        rcases List.mem_cons.mp hs with heq | hs'
        · rw [heq]
          exact fun hacc => hlr hacc.2
        · exact hpre s hs'
    · rw [if_neg hcs] at h
      obtain ⟨pre, t', post, hsplit, hpre, hcs', hlr', hr⟩ := ih r h
      refine ⟨t :: pre, t', post, by rw [hsplit]; rfl, ?_, hcs', hlr', hr⟩
      intro s hs
      rcases List.mem_cons.mp hs with heq | hs'
      · rw [heq]
        exact fun hacc => hcs hacc.1
      · exact hpre s hs'

/-- The app-matching loop accepts (ends with an empty
`found_but_not_target_apps`) exactly when every app uri on the medium
belongs to the target's app set. -/
lemma appsLoop_empty_iff_covers (fa : List Str) (apps : List TargetApp)
    (hnd : (apps.map TargetApp.name).Nodup) :
    (appsLoopGo fa apps fa apps).1 = [] ↔ ∀ u ∈ fa, ∃ a ∈ apps, a.uri = u := by
  obtain ⟨K, hK, heq, hbrk, hmin⟩ :=
    appsLoopGo_spec fa apps fa [] (fun u hu => hu) (by simp) hnd
  simp only [List.nil_append] at heq
  rw [heq]
  dsimp only
  constructor
  · intro h u hu
    by_contra hno
    push_neg at hno
    have hu' : u ∈ pendAt fa apps K := by
      simp only [pendAt, List.mem_filter]
      refine ⟨hu, ?_⟩
      simp only [decide_eq_true_eq]
      intro hany
      obtain ⟨a, ha, hau⟩ := List.any_eq_true.mp hany
      exact hno a (List.mem_of_mem_take ha) (by simpa using hau)
    rw [h] at hu'
    exact absurd hu' (List.not_mem_nil u)
  · intro h
    rcases Nat.lt_or_ge K apps.length with hKlt | hKge
    · exact hbrk hKlt
    · have hKeq : K = apps.length := le_antisymm hK hKge
      subst hKeq
      simp only [pendAt]
      apply List.filter_eq_nil_iff.mpr
      intro u hu
      rw [List.take_length apps]
      simp only [decide_eq_true_eq, not_not]
      obtain ⟨a, ha, hau⟩ := h u hu
      exact List.any_eq_true.mpr ⟨a, ha, by simp [hau]⟩

/-- C1 (amended): characterization of the offline target selector with no
explicit target name (`client.cc` lines 215-285), for any comparator
satisfying the `strverscmp` contract and targets whose app names are
unique (jsoncpp object keys).  Unknown is returned iff no retained
candidate matches the bundle.  A returned target is a retained candidate
that matches the bundle and is version-maximal among matching retained
candidates; its app map is NOT the full intersection with the medium's
apps: there is a cutoff `K` (the point at which every medium app has been
covered, where the loop breaks early) such that of the first `K` apps
exactly those on the medium are kept, while every app after the cutoff is
kept unconditionally, on or off the medium. -/
theorem getTarget_c1_selector_characterization (vc : Str → Str → Int) (hw : Str)
    (ts : List Target) (commits found_apps : List Str)
    (hvc0 : ∀ a b, vc a b = 0 ↔ a = b)
    (hvc1 : ∀ a b, 0 < vc a b ↔ vc b a < 0)
    (hvc2 : ∀ a b c, 0 < vc a b → 0 < vc b c → 0 < vc a c)
    (hnd : ∀ t ∈ ts, (t.apps.map TargetApp.name).Nodup) :
    (getTargetSel vc hw ts commits found_apps = none ↔
      ∀ t ∈ availableTargets vc hw ts, ¬ matchesBundle commits found_apps t) ∧
    (∀ r, getTargetSel vc hw ts commits found_apps = some r →
      ∃ t ∈ availableTargets vc hw ts,
        t ∈ ts ∧ eligible hw t = true ∧
        matchesBundle commits found_apps t ∧
        (∀ s ∈ availableTargets vc hw ts, matchesBundle commits found_apps s →
          s = t ∨ 0 < vc t.customVersion s.customVersion) ∧
        ∃ K, K ≤ t.apps.length ∧
          (K < t.apps.length → pendAt found_apps t.apps K = []) ∧
          (∀ j, j < K → pendAt found_apps t.apps j ≠ []) ∧
          r = { t with
                apps := appsIntersection (t.apps.take K) found_apps
                  ++ t.apps.drop K }) := by
  have hprovAV : ∀ s ∈ availableTargets vc hw ts, s ∈ ts ∧ eligible hw s = true := by
    intro s hs
    simp only [availableTargets] at hs
    rcases selFold_provenance ts [] hs with h | h
    · simp at h
    · exact h
  have hacc_iff : ∀ t ∈ ts, ((commits.contains t.sha256 = true ∧
      (appsLoopGo found_apps t.apps found_apps t.apps).1 = []) ↔
      matchesBundle commits found_apps t) := by
    intro t ht
    unfold matchesBundle
    exact and_congr List.elem_iff (appsLoop_empty_iff_covers found_apps t.apps (hnd t ht))
  constructor
  · simp only [getTargetSel]
    rw [findTarget_none_iff]
    exact forall_congr' fun t =>
      imp_congr_right fun ht => not_congr (hacc_iff t (hprovAV t ht).1)
  · intro r hr
    simp only [getTargetSel] at hr
    obtain ⟨pre, t, post, hsplit, hpre, hcs, hlr, hreq⟩ :=
      findTarget_some_split commits found_apps _ r hr
    have htAV : t ∈ availableTargets vc hw ts := by
      rw [hsplit]
      exact List.mem_append.mpr (Or.inr (List.mem_cons_self _ _))
    have htts := hprovAV t htAV
    have hmatch : matchesBundle commits found_apps t := (hacc_iff t htts.1).mp ⟨hcs, hlr⟩
    refine ⟨t, htAV, htts.1, htts.2, hmatch, ?_, ?_⟩
    · intro s hsAV hsm
      have hacc_s := (hacc_iff s (hprovAV s hsAV).1).mpr hsm
      have hsnotpre : s ∉ pre := fun hsp => hpre s hsp hacc_s
      have hsmem : s ∈ pre ++ t :: post := by
        rw [← hsplit]
        exact hsAV
      rcases List.mem_append.mp hsmem with h | h
      · exact absurd h hsnotpre
      · rcases List.mem_cons.mp h with heq | hpost
        · exact Or.inl heq
        · right
          have hpw : (availableTargets vc hw ts).Pairwise
              (fun x y => 0 < vc x.customVersion y.customVersion) := by
            simp only [availableTargets]
            exact @selFold_pairwise vc hw hvc2 ts [] (by simp)
          rw [hsplit] at hpw
          exact (List.pairwise_cons.mp (List.pairwise_append.mp hpw).2.1).1 s hpost
    · obtain ⟨K, hK, heq, hbrk, hmin⟩ :=
        appsLoopGo_spec found_apps t.apps found_apps [] (fun u hu => hu) (by simp)
          (hnd t htts.1)
      simp only [List.nil_append] at heq
      refine ⟨K, hK, hbrk, hmin, ?_⟩
      rw [hreq, heq]

/-- C1 counterexample: two concrete refutations.  (a) The early `break`
of the app loop: a target with apps `A@a` and `B@b`, a bundle holding only
`A@a` — once `A` is matched the pending list empties and the loop breaks
before processing `B`, so the returned target keeps BOTH apps, not the
claimed intersection (which is `[A]` only).  (b) The iff direction: two
eligible targets with equal versions — the second one matches the bundle's
commit, but the version dedup of the candidate set retained only the
first, which does not match, so Unknown is returned although a target
satisfying the claim's condition exists. -/
theorem getTarget_c1_counterexample :
    (getTargetSel strCmpC ['h']
        [⟨['f'], ['c'], [['h']], ['1'], [⟨['A'], ['a']⟩, ⟨['B'], ['b']⟩]⟩]
        [['c']] [['a']]
      = some ⟨['f'], ['c'], [['h']], ['1'], [⟨['A'], ['a']⟩, ⟨['B'], ['b']⟩]⟩ ∧
     appsIntersection [⟨['A'], ['a']⟩, ⟨['B'], ['b']⟩] [['a']] = [⟨['A'], ['a']⟩] ∧
     ([⟨['A'], ['a']⟩, ⟨['B'], ['b']⟩] : List TargetApp) ≠ [⟨['A'], ['a']⟩]) ∧
    (getTargetSel strCmpC ['h']
        [⟨['f', '1'], ['c', '0'], [['h']], ['1'], []⟩,
         ⟨['f', '2'], ['c', '1'], [['h']], ['1'], []⟩]
        [['c', '1']] []
      = none ∧
     matchesBundle [['c', '1']] [] ⟨['f', '2'], ['c', '1'], [['h']], ['1'], []⟩) := by
  refine ⟨⟨rfl, rfl, by decide⟩, rfl, by decide⟩

/-- Concrete instantiation of the C1 characterization: on a bundle whose
commit matches no candidate, the selector's Unknown result coincides with
the absence of any matching retained candidate. -/
theorem getTarget_c1_selector_characterization_witness :
    (getTargetSel strCmpC ['h'] [⟨['f'], ['c'], [['h']], ['1'], []⟩] [['d']] [] = none ↔
      ∀ t ∈ availableTargets strCmpC ['h'] [⟨['f'], ['c'], [['h']], ['1'], []⟩],
        ¬ matchesBundle [['d']] [] t) := by
  exact (getTarget_c1_selector_characterization strCmpC ['h']
      [⟨['f'], ['c'], [['h']], ['1'], []⟩] [['d']] []
      strCmpC_eq_zero_iff strCmpC_pos_iff_neg strCmpC_trans_pos
      (by decide)).1

/-! ## Order facts about the jsoncpp key order `strLtB` -/

lemma strLtB_irrefl : ∀ a : Str, strLtB a a = false
  | [] => rfl
  | c :: cs => by
    simp only [strLtB, if_neg (lt_irrefl c)]
    exact strLtB_irrefl cs

lemma strLtB_asymm : ∀ a b : Str, strLtB a b = true → strLtB b a = false
  | [], [] => by
    intro h
    simp [strLtB] at h
  | [], _ :: _ => by
    intro _
    rfl
  | a :: as, [] => by
    intro h
    simp [strLtB] at h
  | a :: as, b :: bs => by
    intro h
    simp only [strLtB] at h ⊢
    rcases lt_trichotomy a b with hab | hab | hab
    · rw [if_neg (asymm hab), if_pos hab]
    · subst hab
      rw [if_neg (lt_irrefl a), if_neg (lt_irrefl a)] at h ⊢
      exact strLtB_asymm as bs h
    · rw [if_neg (asymm hab), if_pos hab] at h
      exact absurd h (by decide)

lemma strLtB_conn : ∀ a b : Str, strLtB a b = false → strLtB b a = false → a = b
  | [], [] => fun _ _ => rfl
  | [], b :: bs => by
    intro h _
    simp [strLtB] at h
  | a :: as, [] => by
    intro _ h
    simp [strLtB] at h
  | a :: as, b :: bs => by
    intro h1 h2
    simp only [strLtB] at h1 h2
    rcases lt_trichotomy a b with hab | hab | hab
    · rw [if_pos hab] at h1
      exact absurd h1 (by decide)
    · subst hab
      rw [if_neg (lt_irrefl a), if_neg (lt_irrefl a)] at h1 h2
      rw [strLtB_conn as bs h1 h2]
    · rw [if_pos hab] at h2
      exact absurd h2 (by decide)

lemma strLtB_trans : ∀ a b c : Str,
    strLtB a b = true → strLtB b c = true → strLtB a c = true
  | [], b, c => by
    intro _ h2
    cases c with
    | cons z zs => rfl
    | nil =>
      cases b with
      | nil => simp [strLtB] at h2
      | cons y ys => simp [strLtB] at h2
  | a :: as, [], c => by
    intro h1 _
    simp [strLtB] at h1
  | a :: as, b :: bs, [] => by
    intro _ h2
    simp [strLtB] at h2
  | a :: as, b :: bs, c :: cs => by
    intro h1 h2
    simp only [strLtB] at h1 h2 ⊢
    rcases lt_trichotomy a b with hab | hab | hab
    · rcases lt_trichotomy b c with hbc | hbc | hbc
      · rw [if_pos (lt_trans hab hbc)]
      · subst hbc
        rw [if_pos hab]
      · rw [if_neg (asymm hbc), if_pos hbc] at h2
        exact absurd h2 (by decide)
    · subst hab
      rcases lt_trichotomy a c with hac | hac | hac
      · rw [if_pos hac]
      · subst hac
        rw [if_neg (lt_irrefl a), if_neg (lt_irrefl a)] at h1 h2 ⊢
        exact strLtB_trans as bs cs h1 h2
      · rw [if_neg (asymm hac), if_pos hac] at h2
        exact absurd h2 (by decide)
    · rw [if_neg (asymm hab), if_pos hab] at h1
      exact absurd h1 (by decide)

/-! ## jsoncpp object member insertion -/

lemma find?_objInsert_same : ∀ (kvs : List (Str × Jsn)) (k : Str) (v : Jsn),
    (objInsert kvs k v).find? (fun p => p.1 = k) = some (k, v) := by
  intro kvs
  induction kvs with
  | nil =>
    intro k v
    simp [objInsert]
  | cons kv rest ih =>
    intro k v
    obtain ⟨k1, v1⟩ := kv
    simp only [objInsert]
    split
    · simp
    · split
      · rename_i h1 h2
        have hk1 : ¬ (k1 = k) := by
          intro heq
          rw [heq] at h2
          rw [strLtB_irrefl] at h2
          exact absurd h2 (by decide)
        rw [show List.find? (fun p => p.1 = k) ((k1, v1) :: objInsert rest k v)
            = List.find? (fun p => p.1 = k) (objInsert rest k v) from by
          simp [List.find?_cons, hk1]]
        exact ih k v
      · simp

lemma find?_objInsert_other : ∀ (kvs : List (Str × Jsn)) (k k' : Str) (v : Jsn),
    k' ≠ k →
    (objInsert kvs k v).find? (fun p => p.1 = k')
      = kvs.find? (fun p => p.1 = k') := by
  intro kvs
  induction kvs with
  | nil =>
    intro k k' v hne
    have hke : ¬ (k = k') := fun h => hne h.symm
    simp [objInsert, List.find?_cons, hke]
  | cons kv rest ih =>
    intro k k' v hne
    obtain ⟨k1, v1⟩ := kv
    have hke : ¬ (k = k') := fun h => hne h.symm
    simp only [objInsert]
    split
    · simp [List.find?_cons, hke]
    · split
      · by_cases hk1 : k1 = k'
        · simp [List.find?_cons, hk1]
        · rw [show List.find? (fun p => p.1 = k') ((k1, v1) :: objInsert rest k v)
              = List.find? (fun p => p.1 = k') (objInsert rest k v) from by
            simp [List.find?_cons, hk1]]
          rw [show List.find? (fun p => p.1 = k') ((k1, v1) :: rest)
              = List.find? (fun p => p.1 = k') rest from by
            simp [List.find?_cons, hk1]]
          exact ih k k' v hne
      · rename_i h1 h2
        have hk1 : k = k1 := by
          apply strLtB_conn
          · simpa using h1
          · simpa using h2
        have hk1e : ¬ (k1 = k') := by
          intro h
          exact hne (by rw [← h, hk1])
        rw [show List.find? (fun p => p.1 = k') ((k, v) :: rest)
            = List.find? (fun p => p.1 = k') rest from by
          simp [List.find?_cons, hke]]
        rw [show List.find? (fun p => p.1 = k') ((k1, v1) :: rest)
            = List.find? (fun p => p.1 = k') rest from by
          simp [List.find?_cons, hk1e]]

lemma get_objInsert_same (kvs : List (Str × Jsn)) (k : Str) (v : Jsn) :
    (Jsn.obj (objInsert kvs k v)).get k = v := by
  simp [Jsn.get, find?_objInsert_same]

lemma get_objInsert_other (kvs : List (Str × Jsn)) (k k' : Str) (v : Jsn)
    (hne : k' ≠ k) :
    (Jsn.obj (objInsert kvs k v)).get k' = (Jsn.obj kvs).get k' := by
  simp [Jsn.get, find?_objInsert_other kvs k k' v hne]

lemma objInsert_over : ∀ (kvs : List (Str × Jsn)) (k : Str) (v w : Jsn),
    objInsert (objInsert kvs k v) k w = objInsert kvs k w
  | [], k, v, w => by
    simp [objInsert, strLtB_irrefl]
  | (k1, v1) :: rest, k, v, w => by
    simp only [objInsert]
    split
    · rename_i h1
      simp [objInsert, strLtB_irrefl, h1]
    · split
      · rename_i h1 h2
        simp only [objInsert]
        rw [objInsert_over rest k v w, if_neg h1, if_pos h2]
      · rename_i h1 h2
        simp [objInsert, strLtB_irrefl, h1, h2]

lemma strLtB_tri (a b : Str) : strLtB a b = true ∨ strLtB b a = true ∨ a = b := by
  cases h1 : strLtB a b with
  | true => exact Or.inl rfl
  | false =>
    cases h2 : strLtB b a with
    | true => exact Or.inr (Or.inl rfl)
    | false => exact Or.inr (Or.inr (strLtB_conn a b h1 h2))

lemma objInsert_comm : ∀ (kvs : List (Str × Jsn)) (k k' : Str) (v w : Jsn),
    k ≠ k' →
    objInsert (objInsert kvs k v) k' w = objInsert (objInsert kvs k' w) k v := by
  intro kvs
  induction kvs with
  | nil =>
    intro k k' v w hne
    rcases strLtB_tri k k' with hc | hc | hc
    · simp [objInsert, hc, strLtB_asymm k k' hc]
    · simp [objInsert, hc, strLtB_asymm k' k hc]
    · exact absurd hc hne
  | cons kv rest ih =>
    intro k k' v w hne
    obtain ⟨k1, v1⟩ := kv
    rcases strLtB_tri k k1 with ha | ha | ha
    · rcases strLtB_tri k' k1 with hb | hb | hb
      · rcases strLtB_tri k k' with hc | hc | hc
        · simp [objInsert, ha, hb, hc, strLtB_asymm k k1 ha,
            strLtB_asymm k' k1 hb, strLtB_asymm k k' hc]
        · simp [objInsert, ha, hb, hc, strLtB_asymm k k1 ha,
            strLtB_asymm k' k1 hb, strLtB_asymm k' k hc]
        · exact absurd hc hne
      · have hc : strLtB k k' = true := strLtB_trans k k1 k' ha hb
        simp [objInsert, ha, hb, hc, strLtB_asymm k k1 ha,
          strLtB_asymm k1 k' hb, strLtB_asymm k k' hc]
      · subst hb
        simp [objInsert, ha, strLtB_asymm k k' ha, strLtB_irrefl]
    · rcases strLtB_tri k' k1 with hb | hb | hb
      · have hc : strLtB k' k = true := strLtB_trans k' k1 k hb ha
        simp [objInsert, ha, hb, hc, strLtB_asymm k1 k ha,
          strLtB_asymm k' k1 hb, strLtB_asymm k' k hc]
      · simp [objInsert, ha, hb, strLtB_asymm k1 k ha,
          strLtB_asymm k1 k' hb, ih k k' v w hne]
      · subst hb
        simp [objInsert, ha, strLtB_asymm k' k ha, strLtB_irrefl]
    · subst ha
      rcases strLtB_tri k' k with hb | hb | hb
      · simp [objInsert, hb, strLtB_asymm k' k hb, strLtB_irrefl]
      · simp [objInsert, hb, strLtB_asymm k k' hb, strLtB_irrefl]
      · exact absurd hb.symm hne

/-! ## jsoncpp path assignment -/

lemma get_pair_same (k : Str) (A : Jsn) : (Jsn.obj [(k, A)]).get k = A := by
  simp [Jsn.get, List.find?_cons]

lemma get_pair_other (k k' : Str) (A : Jsn) (hne : k' ≠ k) :
    (Jsn.obj [(k, A)]).get k' = Jsn.null := by
  simp [Jsn.get, List.find?_cons, show ¬ (k = k') from fun h => hne h.symm]

lemma objInsert_pair_same (k : Str) (A B : Jsn) : objInsert [(k, A)] k B = [(k, B)] := by
  simp [objInsert, strLtB_irrefl]

lemma jset_over : ∀ (p : List Str) (j v w : Jsn), jset (jset j p v) p w = jset j p w
  | [], j, v, w => rfl
  | k :: ks, j, v, w => by
    cases j with
    | obj kvs =>
      simp only [jset]
      rw [get_objInsert_same, objInsert_over, jset_over ks ((Jsn.obj kvs).get k) v w]
    | null =>
      simp only [jset]
      rw [get_pair_same, objInsert_pair_same,
        jset_over ks (Jsn.null.get k) v w]
    | str s =>
      simp only [jset]
      rw [get_pair_same, objInsert_pair_same,
        jset_over ks ((Jsn.str s).get k) v w]
    | arr xs =>
      simp only [jset]
      rw [get_pair_same, objInsert_pair_same,
        jset_over ks ((Jsn.arr xs).get k) v w]

lemma jset_comm_head (k k' : Str) (hne : k ≠ k') (ks1 ks2 : List Str) (v w : Jsn) :
    ∀ j, jset (jset j (k :: ks1) v) (k' :: ks2) w
      = jset (jset j (k' :: ks2) w) (k :: ks1) v := by
  intro j
  cases j with
  | obj kvs =>
    simp only [jset]
    rw [get_objInsert_other kvs k k' _ (Ne.symm hne),
      get_objInsert_other kvs k' k _ hne]
    exact congrArg Jsn.obj (objInsert_comm kvs k k' _ _ hne)
  | null =>
    simp only [jset]
    rw [get_pair_other k k' _ (Ne.symm hne), get_pair_other k' k _ hne]
    rw [show Jsn.null.get k = Jsn.null from rfl, show Jsn.null.get k' = Jsn.null from rfl]
    exact congrArg Jsn.obj (by
      simpa [objInsert] using objInsert_comm [] k k'
        (jset Jsn.null ks1 v) (jset Jsn.null ks2 w) hne)
  | str s =>
    simp only [jset]
    rw [get_pair_other k k' _ (Ne.symm hne), get_pair_other k' k _ hne]
    rw [show (Jsn.str s).get k = Jsn.null from rfl,
      show (Jsn.str s).get k' = Jsn.null from rfl]
    exact congrArg Jsn.obj (by
      simpa [objInsert] using objInsert_comm [] k k'
        (jset Jsn.null ks1 v) (jset Jsn.null ks2 w) hne)
  | arr xs =>
    simp only [jset]
    rw [get_pair_other k k' _ (Ne.symm hne), get_pair_other k' k _ hne]
    rw [show (Jsn.arr xs).get k = Jsn.null from rfl,
      show (Jsn.arr xs).get k' = Jsn.null from rfl]
    exact congrArg Jsn.obj (by
      simpa [objInsert] using objInsert_comm [] k k'
        (jset Jsn.null ks1 v) (jset Jsn.null ks2 w) hne)

lemma jset_comm_same_head (k : Str) (ks1 ks2 : List Str) (v w : Jsn)
    (hcomm : ∀ x : Jsn, jset (jset x ks1 v) ks2 w = jset (jset x ks2 w) ks1 v) :
    ∀ j, jset (jset j (k :: ks1) v) (k :: ks2) w
      = jset (jset j (k :: ks2) w) (k :: ks1) v := by
  intro j
  cases j with
  | obj kvs =>
    simp only [jset]
    rw [get_objInsert_same, get_objInsert_same, objInsert_over, objInsert_over,
      hcomm ((Jsn.obj kvs).get k)]
  | null =>
    simp only [jset]
    rw [get_pair_same, get_pair_same, objInsert_pair_same, objInsert_pair_same,
      hcomm (Jsn.null.get k)]
  | str s =>
    simp only [jset]
    rw [get_pair_same, get_pair_same, objInsert_pair_same, objInsert_pair_same,
      hcomm ((Jsn.str s).get k)]
  | arr xs =>
    simp only [jset]
    rw [get_pair_same, get_pair_same, objInsert_pair_same, objInsert_pair_same,
      hcomm ((Jsn.arr xs).get k)]

lemma applyEntry_comm (j : Jsn) (e1 e2 : RegEntry) (hne : e1.ref ≠ e2.ref) :
    applyEntry (applyEntry j e1) e2 = applyEntry (applyEntry j e2) e1 := by
  simp only [applyEntry]
  apply jset_comm_same_head
  intro x
  by_cases hrep : e1.repo = e2.repo
  · rw [hrep]
    apply jset_comm_same_head
    intro y
    exact jset_comm_head e1.ref e2.ref hne [] [] (.str e1.dg) (.str e2.dg) y
  · exact jset_comm_head e1.repo e2.repo hrep [e1.ref] [e2.ref]
      (.str e1.dg) (.str e2.dg) x

lemma applyEntry_over (j : Jsn) (e1 e2 : RegEntry) (hrep : e1.repo = e2.repo)
    (href : e1.ref = e2.ref) :
    applyEntry (applyEntry j e1) e2 = applyEntry j e2 := by
  simp only [applyEntry]
  rw [hrep, href]
  exact jset_over [repositoriesKey, e2.repo, e2.ref] j (.str e1.dg) (.str e2.dg)

lemma fold_applyEntry_comm (e : RegEntry) :
    ∀ (es : List RegEntry) (b : Jsn), (∀ x ∈ es, x.ref ≠ e.ref) →
      es.foldl applyEntry (applyEntry b e) = applyEntry (es.foldl applyEntry b) e := by
  intro es
  induction es with
  | nil =>
    intro b _
    rfl
  | cons e' rest ih =>
    intro b hne
    simp only [List.foldl_cons]
    rw [applyEntry_comm b e e'
      (fun h => hne e' (List.mem_cons_self _ _) h.symm)]
    exact ih (applyEntry b e') (fun x hx => hne x (List.mem_cons_of_mem _ hx))

lemma fold_applyEntry_absorb_mem (e : RegEntry) :
    ∀ (es : List RegEntry) (b : Jsn), e ∈ es →
      (∀ x ∈ es, x.ref = e.ref → x = e) →
      applyEntry (es.foldl applyEntry b) e = es.foldl applyEntry b := by
  intro es
  induction es with
  | nil =>
    intro b h _
    simp at h
  | cons e' rest ih =>
    intro b hmem hkf
    simp only [List.foldl_cons]
    by_cases hin : e ∈ rest
    · exact ih (applyEntry b e') hin (fun x hx h => hkf x (List.mem_cons_of_mem _ hx) h)
    · have he' : e = e' := by
        rcases List.mem_cons.mp hmem with h | h
        · exact h
        · exact absurd h hin
      subst he'
      have hrest : ∀ x ∈ rest, x.ref ≠ e.ref := by
        intro x hx h
        have hxe := hkf x (List.mem_cons_of_mem _ hx) h
        rw [hxe] at hx
        exact hin hx
      rw [← fold_applyEntry_comm e rest (applyEntry b e) hrest,
        applyEntry_over b e e rfl rfl]

lemma fold_applyEntry_absorb (es : List RegEntry)
    (hkf : ∀ e1 ∈ es, ∀ e2 ∈ es, e1.ref = e2.ref → e1 = e2) (b : Jsn) :
    ∀ (l : List RegEntry), (∀ e ∈ l, e ∈ es) →
      l.foldl applyEntry (es.foldl applyEntry b) = es.foldl applyEntry b := by
  intro l
  induction l with
  | nil =>
    intro _
    rfl
  | cons e rest ih =>
    intro hsub
    simp only [List.foldl_cons]
    rw [fold_applyEntry_absorb_mem e es b (hsub e (List.mem_cons_self _ _))
      (fun x hx h => hkf x hx e (hsub e (List.mem_cons_self _ _)) h)]
    exact ih (fun x hx => hsub x (List.mem_cons_of_mem _ hx))

lemma mapM_ok_mem {α β : Type} (f : α → Except String β) :
    ∀ (l : List α) (res : List β), l.mapM f = .ok res →
      ∀ b ∈ res, ∃ a ∈ l, f a = .ok b := by
  intro l
  induction l with
  | nil =>
    intro res h b hb
    rw [List.mapM_nil] at h
    simp only [pure, Except.pure, Except.ok.injEq] at h
    rw [← h] at hb
    simp at hb
  | cons a l ih =>
    intro res h b hb
    rw [List.mapM_cons] at h
    cases hfa : f a with
    | error e =>
      rw [hfa] at h
      simp [Bind.bind, Except.bind] at h
    | ok b1 =>
      rw [hfa] at h
      cases hml : l.mapM f with
      | error e =>
        rw [hml] at h
        simp [Bind.bind, Except.bind] at h
      | ok rest =>
        rw [hml] at h
        simp only [Bind.bind, Except.bind, pure, Except.pure, Except.ok.injEq] at h
        rw [← h] at hb
        rcases List.mem_cons.mp hb with hb1 | hbr
        · refine ⟨a, List.mem_cons_self _ _, ?_⟩
          rw [hfa, hb1]
        · obtain ⟨a', ha', hfa'⟩ := ih rest hml b hbr
          exact ⟨a', List.mem_cons_of_mem _ ha', hfa'⟩

/-- A registered assignment's reference key (the image uri string)
determines the whole assignment: it was produced by `serviceEntries` on
that very string. -/
lemma serviceEntries_ref (store : AppsStore) (s : Str) (e : RegEntry)
    (h : serviceEntries store s = .ok e) : e.ref = s := by
  simp only [serviceEntries] at h
  cases hpu : parseUri s false with
  | error _ =>
    rw [hpu] at h
    simp [Except.bind] at h
  | ok u =>
    rw [hpu] at h
    simp only [Except.bind] at h
    split at h
    · simp at h
    · cases hhd : hashedDigest (by assumption : Str) with
      | error _ =>
        rw [hhd] at h
        simp [Except.bind] at h
      | ok mdg =>
        rw [hhd] at h
        simp only [Except.bind] at h
        split at h
        · simp at h
        · cases hhd2 : hashedDigest (by assumption : Str) with
          | error _ =>
            rw [hhd2] at h
            simp [Except.bind, Except.map] at h
          | ok cdg =>
            rw [hhd2] at h
            simp only [Except.bind, Except.map, Except.ok.injEq] at h
            rw [← h]

lemma registerEntries_ref_fun (store : AppsStore) (t : Target) (es : List RegEntry)
    (h : registerEntries store t = .ok es) :
    ∀ e ∈ es, serviceEntries store e.ref = .ok e := by
  simp only [registerEntries] at h
  cases hm : t.apps.mapM (appEntries store) with
  | error _ =>
    rw [hm] at h
    simp [Except.map] at h
  | ok ls =>
    rw [hm] at h
    simp only [Except.map, Except.ok.injEq] at h
    intro e he
    rw [← h] at he
    rw [List.mem_flatten] at he
    obtain ⟨l, hl, hel⟩ := he
    obtain ⟨app, happ, hae⟩ := mapM_ok_mem (appEntries store) t.apps ls hm l hl
    simp only [appEntries] at hae
    cases hpu : parseUri app.uri true with
    | error _ =>
      rw [hpu] at hae
      simp [Except.bind] at hae
    | ok au =>
      rw [hpu] at hae
      simp only [Except.bind] at hae
      split at hae
      · simp only [Except.ok.injEq] at hae
        rw [← hae] at hel
        simp at hel
      · split at hae
        · simp at hae
        · rename_i images himg
          obtain ⟨img, himgmem, hse⟩ :=
            mapM_ok_mem (serviceEntries store) images l hae e hel
          have href : e.ref = img := serviceEntries_ref store img e hse
          rw [href]
          exact hse

/-- C8: `registerApps` is idempotent on the repositories index.  If a run
writes `j1` (starting from any prior index state, or none), a second run
reading `j1` writes exactly `j1` again — and since the writer is a
function of the JSON value, the files are byte-identical. -/
theorem registerApps_c8_idempotent (store : AppsStore) (t : Target)
    (existing : Option Jsn) (j1 : Jsn)
    (h1 : registerAppsJson store t existing = .ok j1) :
    registerAppsJson store t (some j1) = .ok j1 ∧
    (registerAppsJson store t (some j1)).map writeJsn = .ok (writeJsn j1) := by
  have hmain : registerAppsJson store t (some j1) = .ok j1 := by
    simp only [registerAppsJson] at h1 ⊢
    cases hre : registerEntries store t with
    | error e =>
      rw [hre] at h1
      simp [Except.map] at h1
    | ok es =>
      rw [hre] at h1
      simp only [Except.map, Except.ok.injEq] at h1 ⊢
      have hkf : ∀ e1 ∈ es, ∀ e2 ∈ es, e1.ref = e2.ref → e1 = e2 := by
        intro e1 h1m e2 h2m hr
        have hs1 := registerEntries_ref_fun store t es hre e1 h1m
        have hs2 := registerEntries_ref_fun store t es hre e2 h2m
        rw [hr] at hs1
        rw [hs1] at hs2
        exact (Except.ok.injEq _ _).mp hs2
      rw [← h1]
      exact fold_applyEntry_absorb es hkf _ es (fun e he => he)
  refine ⟨hmain, ?_⟩
  rw [hmain]
  rfl

/-- Concrete instantiation of the C8 idempotence theorem: one app with one
compose service, a populated store; the index produced by the first run is
reproduced exactly by the second. -/
theorem registerApps_c8_idempotent_witness :
    registerAppsJson
      ⟨fun _ _ => true,
        fun _ _ => some ["h/r@sha256:".toList ++ List.replicate 64 'b'],
        fun _ _ _ => some ("sha256:".toList ++ List.replicate 64 'c'),
        fun _ => some ("sha256:".toList ++ List.replicate 64 'd')⟩
      ⟨['f'], ['s'], [['h']], ['1'],
        [⟨['A'], "h/f/a@sha256:".toList ++ List.replicate 64 'a'⟩]⟩
      (some (Jsn.obj [(repositoriesKey,
        Jsn.obj [(['h', '/', 'r'],
          Jsn.obj [("h/r@sha256:".toList ++ List.replicate 64 'b',
            Jsn.str ("sha256:".toList ++ List.replicate 64 'd'))])])]))
      = .ok (Jsn.obj [(repositoriesKey,
          Jsn.obj [(['h', '/', 'r'],
            Jsn.obj [("h/r@sha256:".toList ++ List.replicate 64 'b',
              Jsn.str ("sha256:".toList ++ List.replicate 64 'd'))])])]) := by
  have h := (registerApps_c8_idempotent
      ⟨fun _ _ => true,
        fun _ _ => some ["h/r@sha256:".toList ++ List.replicate 64 'b'],
        fun _ _ _ => some ("sha256:".toList ++ List.replicate 64 'c'),
        fun _ => some ("sha256:".toList ++ List.replicate 64 'd')⟩
      ⟨['f'], ['s'], [['h']], ['1'],
        [⟨['A'], "h/f/a@sha256:".toList ++ List.replicate 64 'a'⟩]⟩
      none
      (Jsn.obj [(repositoriesKey,
        Jsn.obj [(['h', '/', 'r'],
          Jsn.obj [("h/r@sha256:".toList ++ List.replicate 64 'b',
            Jsn.str ("sha256:".toList ++ List.replicate 64 'd'))])])])
      (by rfl)).1
  exact h

end Aklite
